import Mathlib

/-!
# Verification of the FlatFlow epoch scheduler

A shallow embedding of `src/flatflow/scheduler/scheduler.h` together with
models of the internal algorithm headers it includes (Karmarkar–Karp
partitioning, seeded shuffle, reshape, concat and the dataset's `take`),
which are not part of this repository snapshot and are therefore modelled
from the specification.  Machine integers (`mapped_type`, an unsigned
integer type) are modelled as `Nat`; all subtractions performed by the
source are proved to be non-wrapping under the constructor's assertions.
-/

open scoped List

namespace Flatflow

/-! ## Generic list helpers -/

/-- Splits a list into consecutive chunks of `n` elements; the final chunk
may be shorter.  The first argument is recursion fuel (the list length at
the top-level call). -/
def chunksGo {α : Type} : Nat → Nat → List α → List (List α)
  | _, _, [] => []
  | 0, _, x :: l => [x :: l]
  | fuel + 1, n, x :: l => (x :: l).take n :: chunksGo fuel n ((x :: l).drop n)

/-- Splits a list into consecutive chunks of `n` elements. -/
def chunks {α : Type} (n : Nat) (xs : List α) : List (List α) :=
  chunksGo xs.length n xs

theorem chunksGo_flatten {α : Type} (fuel n : Nat) (xs : List α)
    (hn : 0 < n) (hfuel : xs.length ≤ fuel) :
    (chunksGo fuel n xs).flatten = xs := by
  induction fuel generalizing xs with
  | zero =>
    cases xs with
    | nil => simp [chunksGo]
    | cons x l => simp at hfuel
  | succ fuel ih =>
    cases xs with
    | nil => simp [chunksGo]
    | cons x l =>
      simp only [chunksGo, List.flatten_cons]
      rw [ih ((x :: l).drop n)
        (by simp only [List.length_drop, List.length_cons] at hfuel ⊢; omega)]
      exact List.take_append_drop n (x :: l)

theorem chunks_flatten {α : Type} (n : Nat) (xs : List α) (hn : 0 < n) :
    (chunks n xs).flatten = xs :=
  chunksGo_flatten xs.length n xs hn le_rfl

theorem chunksGo_ne_nil {α : Type} (fuel n : Nat) (xs : List α)
    (c : List α) (hc : c ∈ chunksGo fuel n xs) (hn : 0 < n) : c ≠ [] := by
  induction fuel generalizing xs with
  | zero =>
    cases xs with
    | nil => simp [chunksGo] at hc
    | cons x l => simp [chunksGo] at hc; simp [hc]
  | succ fuel ih =>
    cases xs with
    | nil => simp [chunksGo] at hc
    | cons x l =>
      simp only [chunksGo, List.mem_cons] at hc
      rcases hc with hc | hc
      · subst hc
        cases n with
        | zero => omega
        | succ n => simp
      · exact ih _ hc

theorem chunksGo_length_dvd {α : Type} (fuel n P : Nat) (xs : List α)
    (hn : 0 < n) (hP : P ∣ n) (hxs : P ∣ xs.length) (hfuel : xs.length ≤ fuel) :
    ∀ c ∈ chunksGo fuel n xs, P ∣ c.length := by
  induction fuel generalizing xs with
  | zero =>
    cases xs with
    | nil => simp [chunksGo]
    | cons x l => simp at hfuel
  | succ fuel ih =>
    cases xs with
    | nil => simp [chunksGo]
    | cons x l =>
      intro c hc
      simp only [chunksGo, List.mem_cons] at hc
      rcases hc with hc | hc
      · subst hc
        rw [List.length_take]
        rcases Nat.le_total n (x :: l).length with h | h
        · rw [Nat.min_eq_left h]; exact hP
        · rw [Nat.min_eq_right h]; exact hxs
      · refine ih ((x :: l).drop n) ?_ ?_ c hc
        · rw [List.length_drop]
          exact Nat.dvd_sub' hxs hP
        · simp only [List.length_drop, List.length_cons] at hfuel ⊢
          omega

theorem chunksGo_full {α : Type} (fuel n k : Nat) (xs : List α)
    (hn : 0 < n) (hk : xs.length = n * k) (hfuel : xs.length ≤ fuel) :
    ∀ c ∈ chunksGo fuel n xs, c.length = n := by
  induction fuel generalizing xs k with
  | zero =>
    cases xs with
    | nil => simp [chunksGo]
    | cons x l => simp at hfuel
  | succ fuel ih =>
    cases xs with
    | nil => simp [chunksGo]
    | cons x l =>
      intro c hc
      have hkpos : 0 < k := by
        by_contra h
        have : k = 0 := by omega
        subst this
        simp at hk
      have hlen : n ≤ (x :: l).length := by
        calc n = n * 1 := by omega
        _ ≤ n * k := Nat.mul_le_mul_left n hkpos
        _ = (x :: l).length := hk.symm
      simp only [chunksGo, List.mem_cons] at hc
      rcases hc with hc | hc
      · subst hc
        rw [List.length_take, Nat.min_eq_left hlen]
      · refine ih (k := k - 1) ((x :: l).drop n) ?_ ?_ c hc
        · rw [List.length_drop, hk, Nat.mul_sub_one]
        · rw [List.length_drop]
          omega

theorem chunksGo_count {α : Type} (fuel n k : Nat) (xs : List α)
    (hn : 0 < n) (hk : xs.length = n * k) (hfuel : xs.length ≤ fuel) :
    (chunksGo fuel n xs).length = k := by
  induction fuel generalizing xs k with
  | zero =>
    cases xs with
    | nil =>
      simp only [chunksGo, List.length_nil]
      simp only [List.length_nil] at hk
      rcases (Nat.mul_eq_zero.mp hk.symm) with h | h
      · omega
      · omega
    | cons x l => simp at hfuel
  | succ fuel ih =>
    cases xs with
    | nil =>
      simp only [chunksGo, List.length_nil]
      simp only [List.length_nil] at hk
      rcases (Nat.mul_eq_zero.mp hk.symm) with h | h
      · omega
      · omega
    | cons x l =>
      have hkpos : 0 < k := by
        by_contra h
        have : k = 0 := by omega
        subst this
        simp at hk
      have hlen : n ≤ (x :: l).length := by
        calc n = n * 1 := by omega
        _ ≤ n * k := Nat.mul_le_mul_left n hkpos
        _ = (x :: l).length := hk.symm
      simp only [chunksGo, List.length_cons]
      rw [ih (k := k - 1) ((x :: l).drop n) ?_ ?_]
      · omega
      · rw [List.length_drop, hk, Nat.mul_sub_one]
      · rw [List.length_drop]
        omega

theorem chunksGo_single {α : Type} (fuel n : Nat) (xs : List α)
    (hne : xs ≠ []) (hlen : xs.length ≤ n) (hfuel : xs.length ≤ fuel) :
    chunksGo fuel n xs = [xs] := by
  cases xs with
  | nil => exact absurd rfl hne
  | cons x l =>
    cases fuel with
    | zero => simp [chunksGo]
    | succ fuel =>
      simp only [chunksGo]
      rw [List.take_of_length_le hlen, List.drop_of_length_le hlen]
      simp [chunksGo]

/-- Exchanging the middle two blocks of a four-block append is a permutation. -/
theorem perm_append_exchange {α : Type} (a b c d : List α) :
    ((a ++ b) ++ (c ++ d)).Perm ((a ++ c) ++ (b ++ d)) := by
  have h : (b ++ (c ++ d)).Perm (c ++ (b ++ d)) := by
    rw [← List.append_assoc, ← List.append_assoc]
    exact List.perm_append_comm.append_right d
  calc (a ++ b) ++ (c ++ d) = a ++ (b ++ (c ++ d)) := by rw [List.append_assoc]
    _ ~ a ++ (c ++ (b ++ d)) := h.append_left a
    _ = (a ++ c) ++ (b ++ d) := by rw [List.append_assoc]

/-- Flattening a `zipWith (· ++ ·)` of two equally long lists of lists is a
permutation of the two flattenings appended. -/
theorem flatten_zipWith_append_perm {α : Type} :
    ∀ (as bs : List (List α)), as.length = bs.length →
      (List.zipWith (· ++ ·) as bs).flatten.Perm (as.flatten ++ bs.flatten) := by
  intro as
  induction as with
  | nil =>
    intro bs h
    cases bs with
    | nil => simp
    | cons b bs => simp at h
  | cons a as ih =>
    intro bs h
    cases bs with
    | nil => simp at h
    | cons b bs =>
      simp only [List.zipWith_cons_cons, List.flatten_cons]
      have hperm := ih bs (by simpa using h)
      calc (a ++ b) ++ (List.zipWith (· ++ ·) as bs).flatten
          ~ (a ++ b) ++ (as.flatten ++ bs.flatten) := hperm.append_left _
        _ ~ (a ++ as.flatten) ++ (b ++ bs.flatten) := perm_append_exchange a b _ _

/-- The length of the flattening of a list whose members all have length `m`. -/
theorem flatten_length_uniform {α : Type} (m : Nat) :
    ∀ (l : List (List α)), (∀ x ∈ l, x.length = m) →
      l.flatten.length = l.length * m := by
  intro l
  induction l with
  | nil => simp
  | cons x l ih =>
    intro h
    simp only [List.flatten_cons, List.length_append, List.length_cons]
    rw [h x (List.mem_cons_self x l), ih (fun y hy => h y (List.mem_cons_of_mem x hy))]
    ring

/-- Reading a list back out of itself by positions. -/
theorem map_getD_range {α : Type} (d : α) :
    ∀ (l : List α), (List.range l.length).map (fun i => l.getD i d) = l := by
  intro l
  induction l with
  | nil => simp
  | cons x l ih =>
    simp only [List.length_cons, List.range_succ_eq_map, List.map_cons, List.map_map]
    refine congrArg (x :: ·) ?_
    calc (List.range l.length).map ((fun i => (x :: l).getD i d) ∘ Nat.succ)
        = (List.range l.length).map (fun i => l.getD i d) := by
          refine List.map_congr_left ?_
          intro i _
          simp [List.getD]
      _ = l := ih

/-- Every member of a `zipWith` comes from a member of each input list. -/
theorem exists_of_mem_zipWith {α β γ : Type} {f : α → β → γ} :
    ∀ {as : List α} {bs : List β} {c : γ}, c ∈ List.zipWith f as bs →
      ∃ a ∈ as, ∃ b ∈ bs, c = f a b := by
  intro as
  induction as with
  | nil => intro bs c hc; simp at hc
  | cons a as ih =>
    intro bs c hc
    cases bs with
    | nil => simp at hc
    | cons b bs =>
      simp only [List.zipWith_cons_cons, List.mem_cons] at hc
      rcases hc with hc | hc
      · exact ⟨a, List.mem_cons_self a as, b, List.mem_cons_self b bs, hc⟩
      · obtain ⟨a', ha', b', hb', hc'⟩ := ih hc
        exact ⟨a', List.mem_cons_of_mem a ha', b', List.mem_cons_of_mem b hb', hc'⟩

/-- Removing the element at a valid position and re-consing it is a
permutation of the original list. -/
theorem perm_cons_eraseIdx {α : Type} :
    ∀ (l : List α) (i : Nat) (y : α), l[i]? = some y →
      l.Perm (y :: l.eraseIdx i) := by
  intro l
  induction l with
  | nil => intro i y h; simp at h
  | cons x t ih =>
    intro i y h
    cases i with
    | zero =>
      simp only [List.getElem?_cons_zero, Option.some.injEq] at h
      subst h
      simp
    | succ i =>
      simp only [List.getElem?_cons_succ] at h
      rw [List.eraseIdx_cons_succ]
      have h1 : (x :: t).Perm (x :: y :: t.eraseIdx i) := (ih i y h).cons x
      exact h1.trans (List.Perm.swap y x _)

theorem chunksGo_le {α : Type} (fuel n : Nat) (xs : List α)
    (hn : 0 < n) (hfuel : xs.length ≤ fuel) :
    ∀ c ∈ chunksGo fuel n xs, c.length ≤ n := by
  induction fuel generalizing xs with
  | zero =>
    cases xs with
    | nil => simp [chunksGo]
    | cons x l => simp at hfuel
  | succ fuel ih =>
    cases xs with
    | nil => simp [chunksGo]
    | cons x l =>
      intro c hc
      simp only [chunksGo, List.mem_cons] at hc
      rcases hc with hc | hc
      · subst hc
        rw [List.length_take]
        exact Nat.min_le_left n _
      · refine ih ((x :: l).drop n) ?_ c hc
        simp only [List.length_drop, List.length_cons] at hfuel ⊢
        omega

/-- Flattening the singleton lists produced by a map recovers the map. -/
theorem flatten_map_singleton {α β : Type} (f : α → β) :
    ∀ (l : List α), (l.map (fun x => [f x])).flatten = l.map f := by
  intro l
  induction l with
  | nil => simp
  | cons x l ih => simp [ih]

theorem flatten_replicate_nil {α : Type} :
    ∀ (n : Nat), (List.replicate n ([] : List α)).flatten = [] := by
  intro n
  induction n with
  | zero => simp
  | succ n ih => simp [List.replicate_succ, ih]

/-- Sums of chunk-length quotients. -/
theorem sum_length_div {α : Type} (P : Nat) (hP : 0 < P) :
    ∀ (L : List (List α)), (∀ g ∈ L, P ∣ g.length) →
      (L.map (fun g => g.length / P)).sum = L.flatten.length / P := by
  intro L
  induction L with
  | nil => simp
  | cons g L ih =>
    intro h
    obtain ⟨t, ht⟩ := h g (List.mem_cons_self g L)
    simp only [List.map_cons, List.sum_cons, List.flatten_cons, List.length_append]
    rw [ih (fun x hx => h x (List.mem_cons_of_mem g hx)), ht,
      Nat.mul_add_div hP, Nat.mul_div_cancel_left t hP]

/-! ## OverflowSafeCast -/

/-- Modelled from the spec: `OverflowSafeCast` (§4.1) converts an unsigned
sample size to the signed accumulator type used by the partitioner,
saturating at the signed maximum; `flatflow/data/internal/types.h` is not
part of this repository snapshot.  The accumulator is modelled as a 64-bit
signed integer. -/
def overflowSafeCast (s : Nat) : Int :=
  Int.ofNat (min s (2 ^ 63 - 1))

/-! ## Karmarkar–Karp multiway partitioner

Modelled from the spec (§4.2): `flatflow/scheduler/internal/algorithm/partition.h`
is not part of this repository snapshot. -/

/-- A slot of a K-way differencing tuple: its accumulated weight together
with the sample indices assigned to it, in accumulation order (§4.2). -/
abbrev Slot : Type := Int × List Nat

/-- A K-way differencing tuple: `K` slots. -/
abbrev Tup : Type := List Slot

/-- The priority key of a tuple: its spread, the maximum slot weight minus
the minimum slot weight (§4.2). -/
def spread (t : Tup) : Int :=
  match t.map Prod.fst with
  | [] => 0
  | w :: ws => ws.foldl max w - ws.foldl min w

/-- Pops the highest-spread tuple from the nonempty queue `t :: q`; ties
are broken towards the earlier (first-inserted) tuple.  Returns the popped
tuple and the remaining queue in its original order. -/
def popMax : Tup → List Tup → Tup × List Tup
  | t, [] => (t, [])
  | t, u :: rest =>
    if spread t < spread (popMax u rest).1
    then ((popMax u rest).1, t :: (popMax u rest).2)
    else (t, u :: rest)

/-- Pops the highest-spread tuple from a queue of at least two tuples,
keeping the remaining queue's nonemptiness visible in the result type. -/
def popMax2 : Tup → Tup → List Tup → Tup × Tup × List Tup
  | t, u, [] =>
    if spread t < spread u then (u, t, []) else (t, u, [])
  | t, u, v :: rest =>
    if spread t < spread (popMax2 u v rest).1
    then ((popMax2 u v rest).1, t,
      (popMax2 u v rest).2.1 :: (popMax2 u v rest).2.2)
    else (t, u, v :: rest)

/-- Sorts a tuple's slots by weight in non-increasing order. -/
def sortDesc (t : Tup) : Tup :=
  List.insertionSort (fun a b => b.1 ≤ a.1) t

/-- Sorts a tuple's slots by weight in non-decreasing order. -/
def sortAsc (t : Tup) : Tup :=
  List.insertionSort (fun a b => a.1 ≤ b.1) t

/-- Combines two tuples (§4.2): sort each by slot weight, then add the
largest slot of the first to the smallest slot of the second, the second
largest to the second smallest, and so on.  Each combined slot's indices
are the first tuple's indices followed by the second's, preserving
accumulation order. -/
def combine (a b : Tup) : Tup :=
  List.zipWith (fun x y => (x.1 + y.1, x.2 ++ y.2)) (sortDesc a) (sortAsc b)

/-- One differencing step on a queue of at least two tuples: pop the two
highest-spread tuples and push their combination at the back (§4.2). -/
def kkStep (t u : Tup) (rest : List Tup) : List Tup :=
  (popMax (popMax2 t u rest).2.1 (popMax2 t u rest).2.2).2 ++
    [combine (popMax2 t u rest).1
      (popMax (popMax2 t u rest).2.1 (popMax2 t u rest).2.2).1]

/-- The differencing loop (§4.2): repeat `kkStep` until one tuple remains.
`fuel` bounds the number of combining steps; the caller supplies the
initial queue length, which suffices. -/
def kkLoop (K : Nat) : Nat → List Tup → Tup
  | _, [] => List.replicate K ((0 : Int), ([] : List Nat))
  | _, [t] => t
  | 0, t :: _ :: _ => t
  | fuel + 1, t :: u :: rest => kkLoop K fuel (kkStep t u rest)

/-- The indices accumulated in a tuple, slot by slot. -/
def tupIndices (t : Tup) : List Nat :=
  (t.map Prod.snd).flatten

/-- The indices accumulated in a whole queue. -/
def allIndices (q : List Tup) : List Nat :=
  (q.map tupIndices).flatten

/-- A tuple is uniform when all its slots hold the same number of indices. -/
def tupUniform (t : Tup) : Prop :=
  ∃ c, ∀ s ∈ t, s.2.length = c

/-- Modelled from the spec: initial tuple construction for the balanced
partitioner (§4.2 together with the exact micro-batch cardinality demanded
by §3, §4.4 and §4.5).  Each successive group of `K` items forms one
tuple, one item per slot: the item's weight (cast by `OverflowSafeCast`)
in that slot and its index recorded there.  A short final group (possible
only when `K` does not divide the item count, ruled out by the scheduler's
invariants) is padded with zero-weight empty slots. -/
def initTuple (K : Nat) (chunk : List (Nat × Nat)) : Tup :=
  chunk.map (fun it => (overflowSafeCast it.2, [it.1])) ++
    List.replicate (K - chunk.length) ((0 : Int), ([] : List Nat))

/-- Modelled from the spec (§4.2): the K-way Karmarkar–Karp differencing
heuristic used by the scheduler.  `none` models the rejection of `K == 0`
(§4.2, errors); an empty item list with `K > 0` yields `K` empty
micro-batches.  The final tuple's `K` slots are the micro-batches. -/
def KarmarkarKarp (items : List (Nat × Nat)) (K : Nat) :
    Option (List (List Nat)) :=
  if K = 0 then none
  else
    some ((kkLoop K ((chunks K items).map (initTuple K)).length
      ((chunks K items).map (initTuple K))).map Prod.snd)

theorem popMax_perm (t : Tup) (q : List Tup) :
    (t :: q).Perm ((popMax t q).1 :: (popMax t q).2) := by
  induction q generalizing t with
  | nil => simp [popMax]
  | cons u rest ih =>
    simp only [popMax]
    by_cases h : spread t < spread (popMax u rest).1
    · simp only [if_pos h]
      have h1 : (t :: u :: rest).Perm (t :: (popMax u rest).1 :: (popMax u rest).2) :=
        (ih u).cons t
      exact h1.trans (List.Perm.swap _ _ _)
    · simp only [if_neg h]
      exact List.Perm.refl _

theorem popMax2_perm (t u : Tup) (rest : List Tup) :
    (t :: u :: rest).Perm
      ((popMax2 t u rest).1 :: (popMax2 t u rest).2.1 :: (popMax2 t u rest).2.2) := by
  induction rest generalizing t u with
  | nil =>
    simp only [popMax2]
    by_cases h : spread t < spread u
    · simp only [if_pos h]
      exact List.Perm.swap _ _ _
    · simp only [if_neg h]
      exact List.Perm.refl _
  | cons v rest ih =>
    simp only [popMax2]
    by_cases h : spread t < spread (popMax2 u v rest).1
    · simp only [if_pos h]
      have h1 := (ih u v).cons t
      exact h1.trans (List.Perm.swap _ _ _)
    · simp only [if_neg h]
      exact List.Perm.refl _

theorem sortDesc_perm (t : Tup) : (sortDesc t).Perm t :=
  List.perm_insertionSort _ t

theorem sortAsc_perm (t : Tup) : (sortAsc t).Perm t :=
  List.perm_insertionSort _ t

theorem combine_length (a b : Tup) :
    (combine a b).length = min a.length b.length := by
  rw [combine, List.length_zipWith, (sortDesc_perm a).length_eq,
    (sortAsc_perm b).length_eq]

/-- The indices of a zip-combined pair of equally long tuples. -/
theorem flatten_map_snd_zipWith :
    ∀ (as bs : Tup), as.length = bs.length →
      ((List.zipWith (fun x y => (x.1 + y.1, x.2 ++ y.2)) as bs).map
        Prod.snd).flatten.Perm
        ((as.map Prod.snd).flatten ++ (bs.map Prod.snd).flatten) := by
  intro as
  induction as with
  | nil =>
    intro bs h
    cases bs with
    | nil => simp
    | cons b bs => simp at h
  | cons a as ih =>
    intro bs h
    cases bs with
    | nil => simp at h
    | cons b bs =>
      simp only [List.zipWith_cons_cons, List.map_cons, List.flatten_cons]
      have hperm := ih bs (by simpa using h)
      calc (a.2 ++ b.2) ++
            ((List.zipWith (fun x y => (x.1 + y.1, x.2 ++ y.2)) as bs).map
              Prod.snd).flatten
          ~ (a.2 ++ b.2) ++ ((as.map Prod.snd).flatten ++ (bs.map Prod.snd).flatten) :=
            hperm.append_left _
        _ ~ (a.2 ++ (as.map Prod.snd).flatten) ++ (b.2 ++ (bs.map Prod.snd).flatten) :=
            perm_append_exchange _ _ _ _

theorem tupIndices_combine (a b : Tup) (h : a.length = b.length) :
    (tupIndices (combine a b)).Perm (tupIndices a ++ tupIndices b) := by
  have hlen : (sortDesc a).length = (sortAsc b).length := by
    rw [(sortDesc_perm a).length_eq, (sortAsc_perm b).length_eq, h]
  have h1 := flatten_map_snd_zipWith (sortDesc a) (sortAsc b) hlen
  have h2 : ((sortDesc a).map Prod.snd).flatten.Perm (tupIndices a) :=
    ((sortDesc_perm a).map Prod.snd).flatten
  have h3 : ((sortAsc b).map Prod.snd).flatten.Perm (tupIndices b) :=
    ((sortAsc_perm b).map Prod.snd).flatten
  exact h1.trans (h2.append h3)

theorem combine_uniform (a b : Tup) (ca cb : Nat)
    (ha : ∀ s ∈ a, s.2.length = ca) (hb : ∀ s ∈ b, s.2.length = cb) :
    ∀ s ∈ combine a b, s.2.length = ca + cb := by
  intro s hs
  obtain ⟨x, hx, y, hy, hxy⟩ := exists_of_mem_zipWith hs
  subst hxy
  simp only [List.length_append]
  rw [ha x ((sortDesc_perm a).mem_iff.mp hx), hb y ((sortAsc_perm b).mem_iff.mp hy)]

theorem combine_slots (a b : Tup) (K : Nat) (ha : a.length = K)
    (hb : b.length = K) : (combine a b).length = K := by
  rw [combine_length, ha, hb, Nat.min_self]

theorem allIndices_nil : allIndices [] = [] := rfl

theorem allIndices_cons (t : Tup) (q : List Tup) :
    allIndices (t :: q) = tupIndices t ++ allIndices q := by
  simp [allIndices]

theorem allIndices_append (q1 q2 : List Tup) :
    allIndices (q1 ++ q2) = allIndices q1 ++ allIndices q2 := by
  simp [allIndices]

theorem allIndices_perm {q1 q2 : List Tup} (h : q1.Perm q2) :
    (allIndices q1).Perm (allIndices q2) :=
  (h.map tupIndices).flatten

/-- A differencing step pops two tuples off the queue (up to permutation)
and pushes their combination. -/
theorem kkStep_shape (t u : Tup) (rest : List Tup) :
    ∃ a b q2, (t :: u :: rest).Perm (a :: b :: q2) ∧
      kkStep t u rest = q2 ++ [combine a b] := by
  refine ⟨(popMax2 t u rest).1,
    (popMax (popMax2 t u rest).2.1 (popMax2 t u rest).2.2).1,
    (popMax (popMax2 t u rest).2.1 (popMax2 t u rest).2.2).2, ?_, rfl⟩
  have h1 := popMax2_perm t u rest
  have h2 := popMax_perm (popMax2 t u rest).2.1 (popMax2 t u rest).2.2
  exact h1.trans (h2.cons _)

/-- The differencing loop preserves the slot count, the accumulated index
multiset, and slot-cardinality uniformity. -/
theorem kkLoop_spec (K : Nat) : ∀ (fuel : Nat) (q : List Tup),
    (∀ t ∈ q, t.length = K) → q.length ≤ fuel + 1 →
    (kkLoop K fuel q).length = K ∧
      (tupIndices (kkLoop K fuel q)).Perm (allIndices q) ∧
      ((∀ t ∈ q, tupUniform t) → tupUniform (kkLoop K fuel q)) := by
  intro fuel
  induction fuel with
  | zero =>
    intro q hlen hfuel
    match q with
    | [] =>
      refine ⟨by simp [kkLoop], ?_, ?_⟩
      · simp [kkLoop, tupIndices, allIndices, List.map_replicate,
          flatten_replicate_nil]
      · intro
        exact ⟨0, by
          intro s hs
          simp only [kkLoop] at hs
          simp [List.eq_of_mem_replicate hs]⟩
    | [t] =>
      refine ⟨hlen t (by simp), ?_, ?_⟩
      · simp [kkLoop, allIndices, tupIndices]
      · intro h
        exact h t (by simp)
    | t :: u :: rest => simp at hfuel
  | succ fuel ih =>
    intro q hlen hfuel
    match q with
    | [] =>
      refine ⟨by simp [kkLoop], ?_, ?_⟩
      · simp [kkLoop, tupIndices, allIndices, List.map_replicate,
          flatten_replicate_nil]
      · intro
        exact ⟨0, by
          intro s hs
          simp only [kkLoop] at hs
          simp [List.eq_of_mem_replicate hs]⟩
    | [t] =>
      refine ⟨hlen t (by simp), ?_, ?_⟩
      · simp [kkLoop, allIndices, tupIndices]
      · intro h
        exact h t (by simp)
    | t :: u :: rest =>
      obtain ⟨a, b, q2, hperm, heq⟩ := kkStep_shape t u rest
      have ha : a ∈ t :: u :: rest := hperm.mem_iff.mpr (by simp)
      have hb : b ∈ t :: u :: rest := hperm.mem_iff.mpr (by simp)
      have hmemq2 : ∀ x ∈ q2, x ∈ t :: u :: rest := by
        intro x hx
        exact hperm.mem_iff.mpr (by simp [hx])
      have hlen' : ∀ x ∈ kkStep t u rest, x.length = K := by
        rw [heq]
        intro x hx
        rcases List.mem_append.mp hx with hx | hx
        · exact hlen x (hmemq2 x hx)
        · rw [List.mem_singleton.mp hx]
          exact combine_slots a b K (hlen a ha) (hlen b hb)
      have hq2len : q2.length = rest.length := by
        have := hperm.length_eq
        simp only [List.length_cons] at this
        omega
      have hfuel' : (kkStep t u rest).length ≤ fuel + 1 := by
        rw [heq, List.length_append, hq2len]
        simp only [List.length_cons] at hfuel
        simp only [List.length_singleton]
        omega
      obtain ⟨ih1, ih2, ih3⟩ := ih (kkStep t u rest) hlen' hfuel'
      have hstep : kkLoop K (fuel + 1) (t :: u :: rest) =
          kkLoop K fuel (kkStep t u rest) := rfl
      refine ⟨hstep ▸ ih1, ?_, ?_⟩
      · rw [hstep]
        refine ih2.trans ?_
        have h1 : (allIndices (kkStep t u rest)).Perm
            (allIndices q2 ++ (tupIndices a ++ tupIndices b)) := by
          rw [heq, allIndices_append, allIndices_cons, allIndices_nil,
            List.append_nil]
          exact (tupIndices_combine a b
            (by rw [hlen a ha, hlen b hb])).append_left _
        refine h1.trans ?_
        have h2 : (allIndices q2 ++ (tupIndices a ++ tupIndices b)).Perm
            (tupIndices a ++ (tupIndices b ++ allIndices q2)) := by
          refine List.perm_append_comm.trans ?_
          rw [List.append_assoc]
        refine h2.trans ?_
        have h3 : allIndices (a :: b :: q2) =
            tupIndices a ++ (tupIndices b ++ allIndices q2) := by
          rw [allIndices_cons, allIndices_cons]
        rw [← h3]
        exact (allIndices_perm hperm).symm
      · intro hu
        rw [hstep]
        refine ih3 ?_
        rw [heq]
        intro x hx
        rcases List.mem_append.mp hx with hx | hx
        · exact hu x (hmemq2 x hx)
        · rw [List.mem_singleton.mp hx]
          obtain ⟨ca, hca⟩ := hu a ha
          obtain ⟨cb, hcb⟩ := hu b hb
          exact ⟨ca + cb, combine_uniform a b ca cb hca hcb⟩

theorem initTuple_length (K : Nat) (chunk : List (Nat × Nat))
    (h : chunk.length ≤ K) : (initTuple K chunk).length = K := by
  simp only [initTuple, List.length_append, List.length_map,
    List.length_replicate]
  omega

theorem initTuple_indices (K : Nat) (chunk : List (Nat × Nat)) :
    tupIndices (initTuple K chunk) = chunk.map Prod.fst := by
  simp only [tupIndices, initTuple, List.map_append, List.map_map,
    List.map_replicate, List.flatten_append, flatten_replicate_nil,
    List.append_nil]
  exact flatten_map_singleton Prod.fst chunk

theorem initTuple_uniform (K : Nat) (chunk : List (Nat × Nat))
    (h : chunk.length = K) : tupUniform (initTuple K chunk) := by
  refine ⟨1, ?_⟩
  intro s hs
  simp only [initTuple, h, Nat.sub_self, List.replicate_zero,
    List.append_nil, List.mem_map] at hs
  obtain ⟨it, _, hit⟩ := hs
  simp [← hit]

/-- The Karmarkar–Karp partitioner returns, for `K > 0`, exactly `K`
micro-batches whose flattening is a permutation of the input indices;
when `K` divides the number of items every micro-batch holds exactly
`|items| / K` indices. -/
theorem KarmarkarKarp_spec (items : List (Nat × Nat)) (K : Nat) (hK : K ≠ 0) :
    ∃ mbs, KarmarkarKarp items K = some mbs ∧ mbs.length = K ∧
      mbs.flatten.Perm (items.map Prod.fst) ∧
      (K ∣ items.length → ∀ b ∈ mbs, b.length = items.length / K) := by
  have hK0 : 0 < K := Nat.pos_of_ne_zero hK
  set start := (chunks K items).map (initTuple K) with hstart
  have hstartlen : ∀ t ∈ start, t.length = K := by
    intro t ht
    rw [hstart] at ht
    obtain ⟨c, hc, hct⟩ := List.mem_map.mp ht
    rw [← hct]
    exact initTuple_length K c (chunksGo_le items.length K items hK0 le_rfl c hc)
  set final := kkLoop K start.length start with hfinal
  obtain ⟨h1, h2, h3⟩ := kkLoop_spec K start.length start hstartlen
    (Nat.le_succ _)
  have hall : allIndices start = items.map Prod.fst := by
    rw [hstart]
    simp only [allIndices, List.map_map]
    have hcong : (chunks K items).map (tupIndices ∘ initTuple K) =
        (chunks K items).map (fun c => c.map Prod.fst) := by
      refine List.map_congr_left ?_
      intro c _
      exact initTuple_indices K c
    rw [hcong, ← List.map_flatten, chunks_flatten K items hK0]
  refine ⟨final.map Prod.snd, ?_, ?_, ?_, ?_⟩
  · rw [KarmarkarKarp, if_neg hK]
  · rw [List.length_map, hfinal, h1]
  · have : (final.map Prod.snd).flatten = tupIndices final := rfl
    rw [this, ← hall]
    exact h2
  · intro hdvd
    obtain ⟨k, hk⟩ := hdvd
    have hfull : ∀ c ∈ chunks K items, c.length = K :=
      chunksGo_full items.length K k items hK0 hk le_rfl
    have huni : ∀ t ∈ start, tupUniform t := by
      intro t ht
      rw [hstart] at ht
      obtain ⟨c, hc, hct⟩ := List.mem_map.mp ht
      rw [← hct]
      exact initTuple_uniform K c (hfull c hc)
    obtain ⟨m, hm⟩ := h3 huni
    have hmb : ∀ b ∈ final.map Prod.snd, b.length = m := by
      intro b hb
      obtain ⟨s, hs, hsb⟩ := List.mem_map.mp hb
      rw [← hsb]
      exact hm s hs
    have hcount : items.length = K * m := by
      have hlenflat : (final.map Prod.snd).flatten.length =
          (final.map Prod.snd).length * m :=
        flatten_length_uniform m (final.map Prod.snd) hmb
      have hlenperm : (final.map Prod.snd).flatten.length =
          (items.map Prod.fst).length := by
        have : (final.map Prod.snd).flatten = tupIndices final := rfl
        rw [this, ← hall]
        exact h2.length_eq
      rw [hlenflat, List.length_map, hfinal, h1] at hlenperm
      rw [List.length_map] at hlenperm
      omega
    intro b hb
    rw [hmb b hb, hcount, Nat.mul_div_cancel_left m hK0]

/-! ## Shuffle -/

/-- Modelled from the spec (§4.3): the pseudo-random generator driving the
shuffle.  The spec leaves the PRNG implementation-defined ("expose it as
an implementation detail"); a 64-bit linear congruential generator is
used here. -/
def lcgNext (s : Nat) : Nat :=
  (6364136223846793005 * s + 1442695040888963407) % 2 ^ 64

/-- Modelled from the spec (§4.3): deterministic Fisher–Yates shuffle of
the micro-batches keyed by the given seed;
`flatflow/scheduler/internal/algorithm/shuffle.h` is not part of this
repository snapshot.  Each step draws a position from the PRNG stream and
moves that element to the front of the remainder; micro-batches are
permuted as atomic units.  `fuel` is the list length at the top call. -/
def shuffleGo {α : Type} : Nat → Nat → List α → List α
  | 0, _, xs => xs
  | fuel + 1, seed, xs =>
    match xs[seed % xs.length]? with
    | none => xs
    | some y => y :: shuffleGo fuel (lcgNext seed) (xs.eraseIdx (seed % xs.length))

/-- The shuffle entry point: `shuffle(micro_batches, epoch + seed)`. -/
def shuffle {α : Type} (xs : List α) (seed : Nat) : List α :=
  shuffleGo xs.length seed xs

theorem shuffleGo_perm {α : Type} :
    ∀ (fuel seed : Nat) (xs : List α), (shuffleGo fuel seed xs).Perm xs := by
  intro fuel
  induction fuel with
  | zero =>
    intro seed xs
    exact List.Perm.refl _
  | succ fuel ih =>
    intro seed xs
    simp only [shuffleGo]
    split
    · exact List.Perm.refl _
    · next y h =>
      exact ((ih (lcgNext seed) _).cons y).trans
        (perm_cons_eraseIdx xs (seed % xs.length) y h).symm

theorem shuffle_perm {α : Type} (xs : List α) (seed : Nat) :
    (shuffle xs seed).Perm xs :=
  shuffleGo_perm xs.length seed xs

/-! ## Reshape -/

/-- One global batch's contribution to the per-rank rows.  Modelled from
the spec (§4.4): within a global batch of `c` micro-batches the
assignment is block-wise, rank `r` receiving the `r`-th block of `c / P`
consecutive micro-batches; for a full global batch `c / P` is §4.4's `μ`,
so this is exactly "micro-batch `i` goes to rank `i / μ`". -/
def rowsOf (P : Nat) (g : List (List Nat)) : List (List Nat) :=
  (List.range P).map (fun r => ((chunks (g.length / P) g).getD r []).flatten)

/-- Modelled from the spec (§4.4): `reshape` lays a stream of equally
sized micro-batches out across `P` ranks.  The stream is cut into global
batches of `G / m` micro-batches (`m` read off the first micro-batch);
within each global batch micro-batches are dealt to ranks block-wise, and
the rows are concatenated across global batches, giving each rank a flat
index sequence.  `flatflow/scheduler/internal/algorithm/reshape.h` is not
part of this repository snapshot. -/
def reshape (mbs : List (List Nat)) (P G : Nat) : List (List Nat) :=
  (chunks (G / (mbs.headD []).length) mbs).foldl
    (fun acc g => List.zipWith (· ++ ·) acc (rowsOf P g))
    (List.replicate P [])

theorem headD_mem {α : Type} (l : List α) (d : α) (h : l ≠ []) :
    l.headD d ∈ l := by
  cases l with
  | nil => exact absurd rfl h
  | cons x t => simp

theorem rowsOf_length (P : Nat) (g : List (List Nat)) :
    (rowsOf P g).length = P := by
  simp [rowsOf]

theorem rowsOf_flatten (P : Nat) (g : List (List Nat)) (hP : 0 < P)
    (hg : P ∣ g.length) (hne : g ≠ []) :
    (rowsOf P g).flatten = g.flatten := by
  obtain ⟨d, hd⟩ := hg
  have hgpos : 0 < g.length := List.length_pos.mpr hne
  have hdpos : 0 < d := by
    rcases Nat.eq_zero_or_pos d with h | h
    · subst h; omega
    · exact h
  have hgd : g.length = d * P := by rw [hd, Nat.mul_comm]
  have hbcount : (chunks d g).length = P :=
    chunksGo_count g.length d P g hdpos hgd le_rfl
  have hmap : (List.range P).map (fun r => (chunks d g).getD r []) =
      chunks d g := by
    have := map_getD_range ([] : List (List Nat)) (chunks d g)
    rw [hbcount] at this
    exact this
  have hdq : g.length / P = d := by
    rw [hd, Nat.mul_div_cancel_left d hP]
  simp only [rowsOf, hdq]
  have hcomp : (List.range P).map (fun r => ((chunks d g).getD r []).flatten) =
      ((List.range P).map (fun r => (chunks d g).getD r [])).map
        List.flatten := by
    rw [List.map_map]
    rfl
  rw [hcomp, hmap, ← List.flatten_flatten, chunks_flatten d g hdpos]

theorem rowsOf_row_len (P m : Nat) (g : List (List Nat)) (hP : 0 < P)
    (hg : P ∣ g.length) (hne : g ≠ []) (hm : ∀ b ∈ g, b.length = m) :
    ∀ row ∈ rowsOf P g, row.length = g.length / P * m := by
  intro row hrow
  obtain ⟨d, hd⟩ := hg
  have hgpos : 0 < g.length := List.length_pos.mpr hne
  have hdpos : 0 < d := by
    rcases Nat.eq_zero_or_pos d with h | h
    · subst h; omega
    · exact h
  have hgd : g.length = d * P := by rw [hd, Nat.mul_comm]
  have hbcount : (chunks d g).length = P :=
    chunksGo_count g.length d P g hdpos hgd le_rfl
  have hdq : g.length / P = d := by
    rw [hd, Nat.mul_div_cancel_left d hP]
  simp only [rowsOf, hdq, List.mem_map, List.mem_range] at hrow
  obtain ⟨r, hr, hrrow⟩ := hrow
  have hrblocks : r < (chunks d g).length := by omega
  have hgetD : (chunks d g).getD r [] = (chunks d g)[r] :=
    List.getD_eq_getElem (chunks d g) [] hrblocks
  have hblockmem : (chunks d g)[r] ∈ chunks d g := List.getElem_mem hrblocks
  have hblocklen : (chunks d g)[r].length = d :=
    chunksGo_full g.length d P g hdpos hgd le_rfl _ hblockmem
  have hblockmems : ∀ b ∈ (chunks d g)[r], b.length = m := by
    intro b hb
    refine hm b ?_
    have : b ∈ (chunks d g).flatten :=
      List.mem_flatten.mpr ⟨(chunks d g)[r], hblockmem, hb⟩
    rwa [chunks_flatten d g hdpos] at this
  rw [← hrrow, hgetD, flatten_length_uniform m _ hblockmems, hblocklen, hdq]

theorem reshape_foldl_outer (P : Nat) :
    ∀ (groups : List (List (List Nat))) (acc : List (List Nat)),
      acc.length = P →
      (groups.foldl (fun acc g => List.zipWith (· ++ ·) acc (rowsOf P g))
        acc).length = P := by
  intro groups
  induction groups with
  | nil =>
    intro acc h
    simpa using h
  | cons g gs ih =>
    intro acc h
    simp only [List.foldl_cons]
    refine ih _ ?_
    rw [List.length_zipWith, h, rowsOf_length, Nat.min_self]

theorem reshape_foldl_perm (P : Nat) (hP : 0 < P) :
    ∀ (groups : List (List (List Nat))) (acc : List (List Nat)),
      acc.length = P →
      (∀ g ∈ groups, P ∣ g.length ∧ g ≠ []) →
      ((groups.foldl (fun acc g => List.zipWith (· ++ ·) acc (rowsOf P g))
        acc).flatten).Perm
        (acc.flatten ++ (groups.map List.flatten).flatten) := by
  intro groups
  induction groups with
  | nil =>
    intro acc hacc _
    simp
  | cons g gs ih =>
    intro acc hacc hg
    obtain ⟨hgd, hgne⟩ := hg g (List.mem_cons_self g gs)
    simp only [List.foldl_cons, List.map_cons, List.flatten_cons]
    have hstep : (List.zipWith (· ++ ·) acc (rowsOf P g)).length = P := by
      rw [List.length_zipWith, hacc, rowsOf_length, Nat.min_self]
    have h1 := ih (List.zipWith (· ++ ·) acc (rowsOf P g)) hstep
      (fun x hx => hg x (List.mem_cons_of_mem _ hx))
    refine h1.trans ?_
    have h2 : ((List.zipWith (· ++ ·) acc (rowsOf P g)).flatten).Perm
        (acc.flatten ++ g.flatten) := by
      refine (flatten_zipWith_append_perm acc (rowsOf P g)
        (by rw [hacc, rowsOf_length])).trans ?_
      rw [rowsOf_flatten P g hP hgd hgne]
    refine (h2.append_right _).trans ?_
    rw [List.append_assoc]

theorem reshape_foldl_len (P m : Nat) (hP : 0 < P) :
    ∀ (groups : List (List (List Nat))) (acc : List (List Nat)) (sAcc : Nat),
      acc.length = P → (∀ row ∈ acc, row.length = sAcc) →
      (∀ g ∈ groups, P ∣ g.length ∧ g ≠ [] ∧ ∀ b ∈ g, b.length = m) →
      ∀ row ∈ groups.foldl
        (fun acc g => List.zipWith (· ++ ·) acc (rowsOf P g)) acc,
        row.length = sAcc + (groups.map (fun g => g.length / P)).sum * m := by
  intro groups
  induction groups with
  | nil =>
    intro acc sAcc _ hrows _ row hrow
    simpa using hrows row hrow
  | cons g gs ih =>
    intro acc sAcc hacc hrows hg row hrow
    obtain ⟨hgd, hgne, hgm⟩ := hg g (List.mem_cons_self g gs)
    simp only [List.foldl_cons] at hrow
    have hstep : (List.zipWith (· ++ ·) acc (rowsOf P g)).length = P := by
      rw [List.length_zipWith, hacc, rowsOf_length, Nat.min_self]
    have hsteprows : ∀ r ∈ List.zipWith (· ++ ·) acc (rowsOf P g),
        r.length = sAcc + g.length / P * m := by
      intro r hr
      obtain ⟨a, ha, b, hb, hab⟩ := exists_of_mem_zipWith hr
      rw [hab, List.length_append, hrows a ha,
        rowsOf_row_len P m g hP hgd hgne hgm b hb]
    have := ih (List.zipWith (· ++ ·) acc (rowsOf P g))
      (sAcc + g.length / P * m) hstep hsteprows
      (fun x hx => hg x (List.mem_cons_of_mem _ hx)) row hrow
    rw [this]
    simp only [List.map_cons, List.sum_cons]
    rw [Nat.add_mul]
    omega

/-- The reshape contract under the scheduler's invariants: `P` rows, each
of `|mbs| / P` micro-batches' worth of indices, jointly a permutation of
the input stream. -/
theorem reshape_spec (mbs : List (List Nat)) (P G m : Nat)
    (hP : 0 < P) (hne : mbs ≠ [])
    (hmbs : ∀ b ∈ mbs, b.length = m)
    (hchunks : ∀ g ∈ chunks (G / m) mbs, P ∣ g.length)
    (hqpos : 0 < G / m) :
    (reshape mbs P G).length = P ∧
      (reshape mbs P G).flatten.Perm mbs.flatten ∧
      ∀ row ∈ reshape mbs P G, row.length = mbs.length / P * m := by
  have hhead : (mbs.headD []).length = m := hmbs _ (headD_mem mbs [] hne)
  have hgroups : ∀ g ∈ chunks (G / m) mbs,
      P ∣ g.length ∧ g ≠ [] ∧ ∀ b ∈ g, b.length = m := by
    intro g hgmem
    refine ⟨hchunks g hgmem,
      chunksGo_ne_nil mbs.length (G / m) mbs g hgmem hqpos, ?_⟩
    intro b hb
    refine hmbs b ?_
    have : b ∈ (chunks (G / m) mbs).flatten :=
      List.mem_flatten.mpr ⟨g, hgmem, hb⟩
    rwa [chunks_flatten (G / m) mbs hqpos] at this
  have hrepl : (List.replicate P ([] : List Nat)).length = P :=
    List.length_replicate P []
  refine ⟨?_, ?_, ?_⟩
  · simp only [reshape, hhead]
    exact reshape_foldl_outer P (chunks (G / m) mbs) _ hrepl
  · simp only [reshape, hhead]
    refine (reshape_foldl_perm P hP (chunks (G / m) mbs) _ hrepl
      (fun g hg => ⟨(hgroups g hg).1, (hgroups g hg).2.1⟩)).trans ?_
    rw [flatten_replicate_nil, List.nil_append, ← List.flatten_flatten,
      chunks_flatten (G / m) mbs hqpos]
  · intro row hrow
    simp only [reshape, hhead] at hrow
    have := reshape_foldl_len P m hP (chunks (G / m) mbs) _ 0 hrepl
      (by
        intro r hr
        rw [List.eq_of_mem_replicate hr]
        rfl)
      hgroups row hrow
    rw [this, sum_length_div P hP (chunks (G / m) mbs)
      (fun g hg => (hgroups g hg).1), chunks_flatten (G / m) mbs hqpos,
      Nat.zero_add]

/-! ## Concat -/

/-- Modelled from the spec (§4.5): `concat` appends the tail schedule's
rows to the head schedule's rows rank by rank;
`flatflow/scheduler/internal/algorithm/concat.h` is not part of this
repository snapshot. -/
def concat (head tail : List (List Nat)) : List (List Nat) :=
  List.zipWith (· ++ ·) head tail

/-! ## The scheduler (from src/flatflow/scheduler/scheduler.h) -/

/-- The scheduler state.  Field names and order follow the protected
members of `flatflow::scheduler::Scheduler<>` (scheduler.h, lines
217-224).  `epoch_` is an `Option` because the constructor's initializer
list leaves it unset (line 218 declares it; lines 72-75 do not mention
it), so it holds a value only after `on_epoch_begin`; `dataset_` records
the sizes vector handed to `flatflow::data::Dataset` (line 102). -/
structure Scheduler where
  data_parallel_size_ : Nat
  epoch_ : Option Nat
  global_batch_size_ : Nat
  last_micro_batch_size_ : Nat
  micro_batch_size_ : Nat
  num_micro_batches_ : Nat
  seed_ : Nat
  dataset_ : List Nat
  deriving Repr, DecidableEq

/-- The constructor (scheduler.h, lines 68-103).  `none` models an
`assert` firing (the source checks the eight conditions in sequence,
lines 76-83; since any failure aborts before any member is published, the
order is immaterial and they are modelled as one conjunction, with
`sizes = none` standing for a null pointer).  On success the derived
constants are the source's branch-free expressions
`num_micro_batches_ = ((N / P - 1) / M + 1) * P` (lines 87-89) and
`last_micro_batch_size_ = (N / P - 1) % M + 1` (lines 97-98). -/
def mkScheduler (sizes : Option (List Nat))
    (dataParallelSize globalBatchSize microBatchSize seed : Nat) :
    Option Scheduler :=
  match sizes with
  | none => none
  | some l =>
    if dataParallelSize ≠ 0 ∧ globalBatchSize ≠ 0 ∧
        globalBatchSize % dataParallelSize = 0 ∧ microBatchSize ≠ 0 ∧
        globalBatchSize / dataParallelSize % microBatchSize = 0 ∧
        l.length ≠ 0 ∧ l.length % dataParallelSize = 0 then
      some {
        data_parallel_size_ := dataParallelSize
        epoch_ := none
        global_batch_size_ := globalBatchSize
        last_micro_batch_size_ :=
          (l.length / dataParallelSize - 1) % microBatchSize + 1
        micro_batch_size_ := microBatchSize
        num_micro_batches_ :=
          ((l.length / dataParallelSize - 1) / microBatchSize + 1) *
            dataParallelSize
        seed_ := seed
        dataset_ := l }
    else none

/-- `Scheduler::on_epoch_begin` (scheduler.h, lines 194-197): records the
epoch and forwards to the dataset (whose per-epoch sampler state is
modelled by the stream later fed to `Schedule`). -/
def onEpochBegin (e : Nat) (s : Scheduler) : Scheduler :=
  { s with epoch_ := some e }

/-- `Scheduler::on_epoch_end` (scheduler.h, lines 202-204): forwards to
the dataset only; no scheduler field changes. -/
def onEpochEnd (_e : Nat) (s : Scheduler) : Scheduler := s

/-- `Scheduler::on_batch_begin` (scheduler.h, lines 177-179): `const`;
forwards to the dataset only. -/
def onBatchBegin (_batch : Nat) (s : Scheduler) : Scheduler := s

/-- `Scheduler::on_batch_end` (scheduler.h, lines 184-189): `const`; the
`rank` and `costs` arguments are accepted and ignored. -/
def onBatchEnd {γ : Type} (_batch _rank : Nat) (_costs : γ)
    (s : Scheduler) : Scheduler := s

/-- `Scheduler::on_train_begin` (scheduler.h, line 209): `const`. -/
def onTrainBegin (s : Scheduler) : Scheduler := s

/-- `Scheduler::on_train_end` (scheduler.h, line 214): `const`. -/
def onTrainEnd (s : Scheduler) : Scheduler := s

/-- The shuffle seed `epoch_ + seed_` read by `Schedule()` (scheduler.h,
lines 136 and 160/164); defined only once `epoch_` has been set. -/
def shuffleSeedOf (s : Scheduler) : Option Nat :=
  s.epoch_.map (fun e => e + s.seed_)

/-- `Scheduler::Schedule` (scheduler.h, lines 122-172).  The dataset's
epoch sampling order is the `stream` argument (§4.6: `take(n)` returns
the next `n` items of that order, so the two takes of the tail branch
consume consecutive segments).  The result is `none` when the shuffle
seed would read the never-set `epoch_`, or when a partitioner invocation
is rejected (`K == 0`). -/
def Schedule (s : Scheduler) (stream : List (Nat × Nat)) :
    Option (List (List Nat)) :=
  (shuffleSeedOf s).bind (fun sd =>
    if s.micro_batch_size_ = s.last_micro_batch_size_ then
      (KarmarkarKarp
          (stream.take (s.micro_batch_size_ * s.num_micro_batches_))
          s.num_micro_batches_).map
        (fun mbs => reshape (shuffle mbs sd) s.data_parallel_size_
          s.global_batch_size_)
    else
      (KarmarkarKarp
          (stream.take (s.micro_batch_size_ *
            (s.num_micro_batches_ - s.data_parallel_size_)))
          (s.num_micro_batches_ - s.data_parallel_size_)).bind
        (fun mbs =>
          (KarmarkarKarp
              ((stream.drop (s.micro_batch_size_ *
                (s.num_micro_batches_ - s.data_parallel_size_))).take
                (s.last_micro_batch_size_ * s.data_parallel_size_))
              s.data_parallel_size_).map
            (fun lastMbs => concat
              (reshape (shuffle mbs sd) s.data_parallel_size_
                s.global_batch_size_)
              (reshape (shuffle lastMbs sd) s.data_parallel_size_
                s.global_batch_size_))))

/-- The number of items `Schedule()` takes from the dataset: one take of
`M * K` in the uniform branch (line 126), takes of `M * (K - P)` and
`L * P` in the tail branch (lines 144 and 150). -/
def takenAmount (s : Scheduler) : Nat :=
  if s.micro_batch_size_ = s.last_micro_batch_size_ then
    s.micro_batch_size_ * s.num_micro_batches_
  else
    s.micro_batch_size_ * (s.num_micro_batches_ - s.data_parallel_size_) +
      s.last_micro_batch_size_ * s.data_parallel_size_

/-- The full effect of a `Schedule()` call on program state: the schedule
returned, the scheduler afterwards (whose fields `Schedule` never
writes), and the dataset's remaining epoch stream after the takes. -/
def scheduleStep (s : Scheduler) (stream : List (Nat × Nat)) :
    Option (List (List Nat)) × Scheduler × List (Nat × Nat) :=
  (Schedule s stream, s, stream.drop (takenAmount s))

/-- The spec's ceiling division, used in `K = ceil(per_rank / M) * P`
(§3). -/
def divCeil (a b : Nat) : Nat := (a + b - 1) / b

/-- One training epoch: `on_epoch_begin(e)` followed by `Schedule()` on
the epoch's dataset stream. -/
def runEpoch (s : Scheduler) (e : Nat) (stream : List (Nat × Nat)) :
    Option (List (List Nat)) :=
  Schedule (onEpochBegin e s) stream

/-- A sequence of epochs, each given by its number and its dataset
stream (the stream is a deterministic function of the dataset contents,
base seed and epoch, §4.6, so identical datasets give identical
streams). -/
def runEpochs (s : Scheduler) :
    List (Nat × List (Nat × Nat)) → List (Option (List (List Nat)))
  | [] => []
  | (e, st) :: rest => runEpoch s e st :: runEpochs s rest

/-! ## Arithmetic facts about the derived constants -/

theorem lastSize_le (per M : Nat) (hM : 0 < M) : (per - 1) % M + 1 ≤ M :=
  Nat.mod_lt _ hM

theorem tail_identity (per M : Nat) (hper : 1 ≤ per) :
    M * ((per - 1) / M) + ((per - 1) % M + 1) = per := by
  have h := Nat.div_add_mod (per - 1) M
  omega

/-- The branch-free `(x - 1) % y + 1` equals `y` exactly when `y` divides
`x` (scheduler.h, lines 95-98 with §3's uniformity criterion). -/
theorem uniform_iff (per M : Nat) (hper : 1 ≤ per) (hM : 0 < M) :
    (per - 1) % M + 1 = M ↔ per % M = 0 := by
  have h := Nat.div_add_mod (per - 1) M
  have hr : (per - 1) % M < M := Nat.mod_lt _ hM
  have hper' : per = M * ((per - 1) / M) + ((per - 1) % M + 1) := by omega
  have hmod : per % M = ((per - 1) % M + 1) % M := by
    conv_lhs => rw [hper']
    rw [Nat.mul_add_mod]
  constructor
  · intro hEq
    rw [hmod, hEq, Nat.mod_self]
  · intro hEq
    rw [hmod] at hEq
    rcases Nat.lt_or_ge ((per - 1) % M + 1) M with hlt | hge
    · rw [Nat.mod_eq_of_lt hlt] at hEq
      omega
    · omega

/-- When `M` divides `per`, `((per - 1) / M + 1) * M = per`
(the uniform-case coverage identity). -/
theorem uniform_coverage (per M : Nat) (hper : 1 ≤ per) (hM : 0 < M)
    (hdvd : M ∣ per) : ((per - 1) / M + 1) * M = per := by
  obtain ⟨k, hk⟩ := hdvd
  have hk1 : 1 ≤ k := by
    rcases Nat.eq_zero_or_pos k with h | h
    · subst h; omega
    · exact h
  have hsub : M * (k - 1) = M * k - M := Nat.mul_sub_one M k
  have hMk : M ≤ M * k := Nat.le_mul_of_pos_right M hk1
  have hstep : per - 1 = M * (k - 1) + (M - 1) := by omega
  have hdiv : (per - 1) / M = k - 1 := by
    rw [hstep, Nat.mul_add_div hM,
      Nat.div_eq_of_lt (show M - 1 < M by omega)]
    omega
  rw [hdiv]
  have : k - 1 + 1 = k := by omega
  rw [this, hk, Nat.mul_comm]

/-- The branch-free `(x - 1) / y + 1` is the ceiling `⌈x / y⌉`
(scheduler.h, lines 85-89 with §3's definition of `K`). -/
theorem branchless_ceil (per M : Nat) (hper : 1 ≤ per) (hM : 0 < M) :
    (per - 1) / M + 1 = divCeil per M := by
  rw [divCeil]
  have : per + M - 1 = (per - 1) + M := by omega
  rw [this, Nat.add_div_right _ hM]

/-- Inverting a successful construction: every assert condition held and
each field has the source's value (scheduler.h, lines 68-103). -/
theorem mkScheduler_inv {l : List Nat} {P G M seed : Nat} {s : Scheduler}
    (h : mkScheduler (some l) P G M seed = some s) :
    P ≠ 0 ∧ G ≠ 0 ∧ G % P = 0 ∧ M ≠ 0 ∧ G / P % M = 0 ∧ l.length ≠ 0 ∧
      l.length % P = 0 ∧
      s.data_parallel_size_ = P ∧ s.epoch_ = none ∧
      s.global_batch_size_ = G ∧
      s.last_micro_batch_size_ = (l.length / P - 1) % M + 1 ∧
      s.micro_batch_size_ = M ∧
      s.num_micro_batches_ = ((l.length / P - 1) / M + 1) * P ∧
      s.seed_ = seed ∧ s.dataset_ = l := by
  simp only [mkScheduler] at h
  split at h
  · next hc =>
    obtain ⟨h1, h2, h3, h4, h5, h6, h7⟩ := hc
    cases h
    exact ⟨h1, h2, h3, h4, h5, h6, h7, rfl, rfl, rfl, rfl, rfl, rfl, rfl, rfl⟩
  · exact absurd h (by simp)

/-- Derived numeric facts available after a successful construction. -/
theorem scheduler_numeric {l : List Nat} {P G M seed : Nat} {s : Scheduler}
    (h : mkScheduler (some l) P G M seed = some s) :
    0 < P ∧ 0 < M ∧ 0 < l.length ∧ P ∣ l.length ∧ M ∣ G / P ∧ P ∣ G ∧
      1 ≤ l.length / P ∧ M ≤ G / P ∧ P ∣ G / M ∧ 0 < G / M ∧ P ≤ G / M := by
  obtain ⟨h1, h2, h3, h4, h5, h6, h7, _⟩ := mkScheduler_inv h
  have hP : 0 < P := Nat.pos_of_ne_zero h1
  have hM : 0 < M := Nat.pos_of_ne_zero h4
  have hN : 0 < l.length := Nat.pos_of_ne_zero h6
  have hPN : P ∣ l.length := Nat.dvd_of_mod_eq_zero h7
  have hMGP : M ∣ G / P := Nat.dvd_of_mod_eq_zero h5
  have hPG : P ∣ G := Nat.dvd_of_mod_eq_zero h3
  have hper : 1 ≤ l.length / P :=
    Nat.div_pos (Nat.le_of_dvd hN hPN) hP
  have hGP : 1 ≤ G / P :=
    Nat.div_pos (Nat.le_of_dvd (Nat.pos_of_ne_zero h2) hPG) hP
  have hMGPle : M ≤ G / P := Nat.le_of_dvd hGP hMGP
  obtain ⟨t, ht⟩ := id hMGP
  have ht1 : 1 ≤ t := by
    rcases Nat.eq_zero_or_pos t with h0 | h0
    · subst h0; omega
    · exact h0
  have hGPMt : G = P * (M * t) := by
    rw [← ht]
    exact (Nat.mul_div_cancel' hPG).symm
  have hGM : G / M = P * t := by
    rw [hGPMt, Nat.mul_left_comm, Nat.mul_div_cancel_left _ hM]
  refine ⟨hP, hM, hN, hPN, hMGP, hPG, hper, hMGPle, ?_, ?_, ?_⟩
  · rw [hGM]; exact Dvd.intro t rfl
  · rw [hGM]; exact Nat.mul_pos hP ht1
  · rw [hGM]
    calc P = P * 1 := by omega
    _ ≤ P * t := Nat.mul_le_mul_left P ht1

/-- Unfolding `Schedule` in the uniform branch. -/
theorem Schedule_eq_uniform (s : Scheduler) (stream : List (Nat × Nat))
    (sd : Nat) (hseed : shuffleSeedOf s = some sd)
    (hbr : s.micro_batch_size_ = s.last_micro_batch_size_)
    (mbs : List (List Nat))
    (hkk : KarmarkarKarp
      (stream.take (s.micro_batch_size_ * s.num_micro_batches_))
      s.num_micro_batches_ = some mbs) :
    Schedule s stream = some (reshape (shuffle mbs sd)
      s.data_parallel_size_ s.global_batch_size_) := by
  rw [Schedule, hseed]
  simp only [Option.some_bind]
  rw [if_pos hbr, hkk]
  rfl

/-- Unfolding `Schedule` in the tail branch. -/
theorem Schedule_eq_tail (s : Scheduler) (stream : List (Nat × Nat))
    (sd : Nat) (hseed : shuffleSeedOf s = some sd)
    (hbr : ¬ s.micro_batch_size_ = s.last_micro_batch_size_)
    (mbs lastMbs : List (List Nat))
    (hkk : KarmarkarKarp
      (stream.take (s.micro_batch_size_ *
        (s.num_micro_batches_ - s.data_parallel_size_)))
      (s.num_micro_batches_ - s.data_parallel_size_) = some mbs)
    (hkk2 : KarmarkarKarp
      ((stream.drop (s.micro_batch_size_ *
        (s.num_micro_batches_ - s.data_parallel_size_))).take
        (s.last_micro_batch_size_ * s.data_parallel_size_))
      s.data_parallel_size_ = some lastMbs) :
    Schedule s stream = some (concat
      (reshape (shuffle mbs sd) s.data_parallel_size_ s.global_batch_size_)
      (reshape (shuffle lastMbs sd) s.data_parallel_size_
        s.global_batch_size_)) := by
  rw [Schedule, hseed]
  simp only [Option.some_bind]
  rw [if_neg hbr, hkk]
  simp only [Option.some_bind]
  rw [hkk2]
  rfl

/-- `Schedule` on a scheduler whose epoch was never set. -/
theorem Schedule_no_epoch (s : Scheduler) (stream : List (Nat × Nat))
    (h : s.epoch_ = none) : Schedule s stream = none := by
  rw [Schedule, shuffleSeedOf, h]
  rfl

/-- The combined shape and permutation contract of one `Schedule()` call
on a freshly begun epoch: under the §3 preconditions strengthened by
`M ≤ per_rank` (which keeps the tail branch's head partition target
positive), the call succeeds, returns `P` rows of `per_rank` indices
each, and the rows jointly enumerate every dataset index exactly once. -/
theorem Schedule_master {l : List Nat} {P G M seed : Nat} {s : Scheduler}
    (h : mkScheduler (some l) P G M seed = some s)
    (hbig : M ≤ l.length / P)
    (e : Nat) (stream : List (Nat × Nat))
    (hstream : (stream.map Prod.fst).Perm (List.range l.length)) :
    ∃ out, Schedule (onEpochBegin e s) stream = some out ∧
      out.flatten.Perm (List.range l.length) ∧
      out.length = P ∧ ∀ row ∈ out, row.length = l.length / P := by
  obtain ⟨hA1, hA2, hA3, hA4, hA5, hA6, hA7, hf1, hf2, hf3, hf4, hf5, hf6,
    hf7, hf8⟩ := mkScheduler_inv h
  obtain ⟨hP, hM, hN, hPN, hMGP, hPG, hper, hMle, hPGM, hGMpos, hPGMle⟩ :=
    scheduler_numeric h
  set Q := (l.length / P - 1) / M with hQdef
  set R := (l.length / P - 1) % M with hRdef
  have hNPper : l.length = P * (l.length / P) := (Nat.mul_div_cancel' hPN).symm
  have hNperP : l.length / P * P = l.length := by
    rw [Nat.mul_comm]
    exact hNPper.symm
  have hstreamlen : stream.length = l.length := by
    have h1 := hstream.length_eq
    rwa [List.length_map, List.length_range] at h1
  have hseed : shuffleSeedOf (onEpochBegin e s) = some (e + s.seed_) := rfl
  have hm1 : (onEpochBegin e s).micro_batch_size_ = M := hf5
  have hm2 : (onEpochBegin e s).last_micro_batch_size_ = R + 1 := hf4
  have hm3 : (onEpochBegin e s).num_micro_batches_ = (Q + 1) * P := hf6
  have hm4 : (onEpochBegin e s).data_parallel_size_ = P := hf1
  have hm5 : (onEpochBegin e s).global_batch_size_ = G := hf3
  by_cases hbr : M = R + 1
  · -- uniform branch
    have hmod : l.length / P % M = 0 :=
      (uniform_iff (l.length / P) M hper hM).mp hbr.symm
    have hdvd : M ∣ l.length / P := Nat.dvd_of_mod_eq_zero hmod
    have hcov : (Q + 1) * M = l.length / P :=
      uniform_coverage (l.length / P) M hper hM hdvd
    have hKM : M * ((Q + 1) * P) = l.length := by
      calc M * ((Q + 1) * P) = ((Q + 1) * M) * P := by ring
        _ = (l.length / P) * P := by rw [hcov]
        _ = l.length := hNperP
    have hKpos : 0 < (Q + 1) * P := Nat.mul_pos (Nat.succ_pos Q) hP
    have hKne : (Q + 1) * P ≠ 0 := Nat.pos_iff_ne_zero.mp hKpos
    have hitems : stream.take (M * ((Q + 1) * P)) = stream :=
      List.take_of_length_le (by rw [hstreamlen]; exact Nat.le_of_eq hKM.symm)
    obtain ⟨mbs, hkk, hmbslen, hmbsflat, hmbscard⟩ :=
      KarmarkarKarp_spec stream ((Q + 1) * P) hKne
    have hcarddvd : ((Q + 1) * P) ∣ stream.length := by
      rw [hstreamlen]
      exact hKM ▸ dvd_mul_left ((Q + 1) * P) M
    have hcardval : stream.length / ((Q + 1) * P) = M := by
      rw [hstreamlen]
      exact Nat.div_eq_of_eq_mul_left hKpos hKM.symm
    have hmbscards : ∀ b ∈ mbs, b.length = M := by
      intro b hb
      rw [hmbscard hcarddvd b hb, hcardval]
    have hshperm : (shuffle mbs (e + s.seed_)).Perm mbs :=
      shuffle_perm mbs (e + s.seed_)
    have hshlen : (shuffle mbs (e + s.seed_)).length = (Q + 1) * P := by
      rw [hshperm.length_eq, hmbslen]
    have hshcards : ∀ b ∈ shuffle mbs (e + s.seed_), b.length = M :=
      fun b hb => hmbscards b (hshperm.mem_iff.mp hb)
    have hshne : shuffle mbs (e + s.seed_) ≠ [] := by
      intro hcon
      rw [hcon] at hshlen
      simp only [List.length_nil] at hshlen
      omega
    have hshdvd : P ∣ (shuffle mbs (e + s.seed_)).length := by
      rw [hshlen]
      exact dvd_mul_left P (Q + 1)
    have hchunks : ∀ g ∈ chunks (G / M) (shuffle mbs (e + s.seed_)),
        P ∣ g.length :=
      chunksGo_length_dvd _ (G / M) P _ hGMpos hPGM hshdvd le_rfl
    obtain ⟨hr1, hr2, hr3⟩ := reshape_spec (shuffle mbs (e + s.seed_)) P G M
      hP hshne hshcards hchunks hGMpos
    refine ⟨reshape (shuffle mbs (e + s.seed_)) P G, ?_, ?_, hr1, ?_⟩
    · have := Schedule_eq_uniform (onEpochBegin e s) stream (e + s.seed_)
        hseed (by rw [hm1, hm2]; exact hbr) mbs
        (by rw [hm1, hm3, hitems]; exact hkk)
      rw [this, hm4, hm5]
    · refine hr2.trans ?_
      refine (hshperm.flatten).trans ?_
      exact hmbsflat.trans hstream
    · intro row hrow
      rw [hr3 row hrow, hshlen, Nat.mul_div_cancel _ hP, hcov]
  · -- tail branch
    have hmod : ¬ l.length / P % M = 0 := by
      intro hcon
      exact hbr ((uniform_iff (l.length / P) M hper hM).mpr hcon).symm
    have hMlt : M < l.length / P := by
      rcases Nat.lt_or_ge M (l.length / P) with h1 | h1
      · exact h1
      · have hEq : M = l.length / P := by omega
        rw [← hEq, Nat.mod_self] at hmod
        exact absurd rfl hmod
    have hd1 : 1 ≤ Q :=
      (Nat.le_div_iff_mul_le hM).mpr (by omega)
    have hRM : R < M := Nat.mod_lt _ hM
    have htail : M * Q + (R + 1) = l.length / P :=
      tail_identity (l.length / P) M hper
    have hKsub : (Q + 1) * P - P = Q * P := by
      have hx : (Q + 1) * P = Q * P + P := by ring
      omega
    have hamounts : M * (Q * P) + (R + 1) * P = l.length := by
      have hx : M * (Q * P) + (R + 1) * P = (M * Q + (R + 1)) * P := by ring
      rw [hx, htail]
      exact hNperP
    have hLPpos : 0 < (R + 1) * P := Nat.mul_pos (Nat.succ_pos R) hP
    have hQPpos : 0 < Q * P := Nat.mul_pos hd1 hP
    have hQPne : Q * P ≠ 0 := Nat.pos_iff_ne_zero.mp hQPpos
    have hheadlen : (stream.take (M * (Q * P))).length = M * (Q * P) := by
      rw [List.length_take, hstreamlen]
      omega
    have htaillen : ((stream.drop (M * (Q * P))).take ((R + 1) * P)).length =
        (R + 1) * P := by
      rw [List.length_take, List.length_drop, hstreamlen]
      omega
    obtain ⟨mbs, hkk, hmbslen, hmbsflat, hmbscard⟩ :=
      KarmarkarKarp_spec (stream.take (M * (Q * P))) (Q * P) hQPne
    have hheaddvd : (Q * P) ∣ (stream.take (M * (Q * P))).length := by
      rw [hheadlen]
      exact dvd_mul_left (Q * P) M
    have hheadcard : (stream.take (M * (Q * P))).length / (Q * P) = M := by
      rw [hheadlen]
      exact Nat.div_eq_of_eq_mul_left hQPpos rfl
    have hmbscards : ∀ b ∈ mbs, b.length = M := by
      intro b hb
      rw [hmbscard hheaddvd b hb, hheadcard]
    obtain ⟨lastMbs, hkk2, hlastlen, hlastflat, hlastcard⟩ :=
      KarmarkarKarp_spec ((stream.drop (M * (Q * P))).take ((R + 1) * P)) P
        (Nat.pos_iff_ne_zero.mp hP)
    have hlastdvd : P ∣
        ((stream.drop (M * (Q * P))).take ((R + 1) * P)).length := by
      rw [htaillen]
      exact dvd_mul_left P (R + 1)
    have hlastcardval :
        ((stream.drop (M * (Q * P))).take ((R + 1) * P)).length / P =
        R + 1 := by
      rw [htaillen]
      exact Nat.mul_div_cancel _ hP
    have hlastcards : ∀ b ∈ lastMbs, b.length = R + 1 := by
      intro b hb
      rw [hlastcard hlastdvd b hb, hlastcardval]
    -- head reshape
    have hshperm : (shuffle mbs (e + s.seed_)).Perm mbs :=
      shuffle_perm mbs (e + s.seed_)
    have hshlen : (shuffle mbs (e + s.seed_)).length = Q * P := by
      rw [hshperm.length_eq, hmbslen]
    have hshcards : ∀ b ∈ shuffle mbs (e + s.seed_), b.length = M :=
      fun b hb => hmbscards b (hshperm.mem_iff.mp hb)
    have hshne : shuffle mbs (e + s.seed_) ≠ [] := by
      intro hcon
      rw [hcon] at hshlen
      simp only [List.length_nil] at hshlen
      omega
    have hshdvd : P ∣ (shuffle mbs (e + s.seed_)).length := by
      rw [hshlen]
      exact dvd_mul_left P Q
    have hchunks : ∀ g ∈ chunks (G / M) (shuffle mbs (e + s.seed_)),
        P ∣ g.length :=
      chunksGo_length_dvd _ (G / M) P _ hGMpos hPGM hshdvd le_rfl
    obtain ⟨hr1, hr2, hr3⟩ := reshape_spec (shuffle mbs (e + s.seed_)) P G M
      hP hshne hshcards hchunks hGMpos
    -- tail reshape
    have hsh2perm : (shuffle lastMbs (e + s.seed_)).Perm lastMbs :=
      shuffle_perm lastMbs (e + s.seed_)
    have hsh2len : (shuffle lastMbs (e + s.seed_)).length = P := by
      rw [hsh2perm.length_eq, hlastlen]
    have hsh2cards : ∀ b ∈ shuffle lastMbs (e + s.seed_), b.length = R + 1 :=
      fun b hb => hlastcards b (hsh2perm.mem_iff.mp hb)
    have hsh2ne : shuffle lastMbs (e + s.seed_) ≠ [] := by
      intro hcon
      rw [hcon] at hsh2len
      simp only [List.length_nil] at hsh2len
      omega
    have hGLge : P ≤ G / (R + 1) := by
      refine le_trans hPGMle ?_
      exact Nat.div_le_div_left hRM (Nat.succ_pos R)
    have hGLpos : 0 < G / (R + 1) := by omega
    have hchunks2 : ∀ g ∈ chunks (G / (R + 1))
        (shuffle lastMbs (e + s.seed_)), P ∣ g.length := by
      have hsingle : chunks (G / (R + 1)) (shuffle lastMbs (e + s.seed_)) =
          [shuffle lastMbs (e + s.seed_)] :=
        chunksGo_single _ _ _ hsh2ne (by rw [hsh2len]; exact hGLge) le_rfl
      rw [hsingle]
      intro g hg
      rw [List.mem_singleton.mp hg, hsh2len]
    obtain ⟨hr4, hr5, hr6⟩ := reshape_spec (shuffle lastMbs (e + s.seed_))
      P G (R + 1) hP hsh2ne hsh2cards hchunks2 hGLpos
    -- assemble
    refine ⟨concat (reshape (shuffle mbs (e + s.seed_)) P G)
      (reshape (shuffle lastMbs (e + s.seed_)) P G), ?_, ?_, ?_, ?_⟩
    · have := Schedule_eq_tail (onEpochBegin e s) stream (e + s.seed_)
        hseed (by rw [hm1, hm2]; exact hbr) mbs lastMbs
        (by rw [hm1, hm3, hm4, hKsub]; exact hkk)
        (by rw [hm1, hm2, hm3, hm4, hKsub]; exact hkk2)
      rw [this, hm4, hm5]
    · rw [concat]
      refine (flatten_zipWith_append_perm _ _ (by rw [hr1, hr4])).trans ?_
      have hhead : (reshape (shuffle mbs (e + s.seed_)) P G).flatten.Perm
          ((stream.take (M * (Q * P))).map Prod.fst) :=
        hr2.trans (hshperm.flatten.trans hmbsflat)
      have htl : (reshape (shuffle lastMbs (e + s.seed_)) P G).flatten.Perm
          ((stream.drop (M * (Q * P))).map Prod.fst) := by
        refine hr5.trans (hsh2perm.flatten.trans (hlastflat.trans ?_))
        rw [List.take_of_length_le
          (by rw [List.length_drop, hstreamlen]; omega)]
      refine (hhead.append htl).trans ?_
      rw [← List.map_append, List.take_append_drop]
      exact hstream
    · rw [concat, List.length_zipWith, hr1, hr4, Nat.min_self]
    · intro row hrow
      rw [concat] at hrow
      obtain ⟨a, ha, b, hb, hab⟩ := exists_of_mem_zipWith hrow
      rw [hab, List.length_append, hr3 a ha, hr6 b hb, hshlen, hsh2len,
        Nat.mul_div_cancel _ hP, Nat.div_self hP, Nat.one_mul,
        Nat.mul_comm Q M]
      exact htail

/-! ## Claim theorems -/

/-- C3: two schedulers constructed with identical sizes vectors,
configuration and seed, backed by datasets with identical contents (hence
identical per-epoch sampling streams, §4.6), and driven through identical
sequences of `on_epoch_begin` calls, return identical per-rank schedules
from every corresponding pair of `Schedule()` calls. -/
theorem C3_determinism (sizes : List Nat) (P G M seed : Nat)
    (s1 s2 : Scheduler)
    (h1 : mkScheduler (some sizes) P G M seed = some s1)
    (h2 : mkScheduler (some sizes) P G M seed = some s2)
    (runs : List (Nat × List (Nat × Nat))) :
    runEpochs s1 runs = runEpochs s2 runs := by
  have hs : s1 = s2 := by
    rw [h1] at h2
    exact Option.some.inj h2
  rw [hs]

/-- Witness for C3 at scenario-A data (`sizes = [1]*8`, `P=2`, `G=4`,
`M=2`, `seed=0`) over one epoch. -/
theorem C3_witness :
    runEpochs (Scheduler.mk 2 none 4 2 2 4 0 [1, 1, 1, 1, 1, 1, 1, 1])
      [(0, (List.range 8).map (fun i => (i, 1)))] =
    runEpochs (Scheduler.mk 2 none 4 2 2 4 0 [1, 1, 1, 1, 1, 1, 1, 1])
      [(0, (List.range 8).map (fun i => (i, 1)))] :=
  C3_determinism [1, 1, 1, 1, 1, 1, 1, 1] 2 4 2 0
    (Scheduler.mk 2 none 4 2 2 4 0 [1, 1, 1, 1, 1, 1, 1, 1])
    (Scheduler.mk 2 none 4 2 2 4 0 [1, 1, 1, 1, 1, 1, 1, 1])
    (by decide) (by decide)
    [(0, (List.range 8).map (fun i => (i, 1)))]

/-- C4: the derived constants satisfy the coverage identity —
`K * M = P * per_rank` in the uniform case and
`(K - P) * M + P * L = P * per_rank` in the tail case — and a single
`Schedule()` call takes exactly `N = per_rank * P` items from the dataset
in total (`takenAmount` records the take arguments of the two branches,
scheduler.h lines 126, 144 and 150). -/
theorem C4_coverage (l : List Nat) (P G M seed : Nat) (s : Scheduler)
    (h : mkScheduler (some l) P G M seed = some s) :
    (s.micro_batch_size_ = s.last_micro_batch_size_ →
      s.num_micro_batches_ * s.micro_batch_size_ = P * (l.length / P)) ∧
    (s.micro_batch_size_ ≠ s.last_micro_batch_size_ →
      (s.num_micro_batches_ - s.data_parallel_size_) * s.micro_batch_size_ +
        P * s.last_micro_batch_size_ = P * (l.length / P)) ∧
    takenAmount s = l.length ∧ l.length = l.length / P * P := by
  obtain ⟨hA1, hA2, hA3, hA4, hA5, hA6, hA7, hf1, hf2, hf3, hf4, hf5, hf6,
    hf7, hf8⟩ := mkScheduler_inv h
  obtain ⟨hP, hM, hN, hPN, hMGP, hPG, hper, hMle, hPGM, hGMpos, hPGMle⟩ :=
    scheduler_numeric h
  set Q := (l.length / P - 1) / M with hQdef
  set R := (l.length / P - 1) % M with hRdef
  have hNperP : l.length / P * P = l.length := by
    rw [Nat.mul_comm]
    exact Nat.mul_div_cancel' hPN
  have htail : M * Q + (R + 1) = l.length / P :=
    tail_identity (l.length / P) M hper
  have hKsub : (Q + 1) * P - P = Q * P := by
    have hx : (Q + 1) * P = Q * P + P := by ring
    omega
  have huniamt : s.micro_batch_size_ = s.last_micro_batch_size_ →
      M * ((Q + 1) * P) = l.length := by
    intro hbr
    rw [hf5, hf4] at hbr
    have hmod : l.length / P % M = 0 :=
      (uniform_iff (l.length / P) M hper hM).mp hbr.symm
    have hcov : (Q + 1) * M = l.length / P :=
      uniform_coverage (l.length / P) M hper hM
        (Nat.dvd_of_mod_eq_zero hmod)
    calc M * ((Q + 1) * P) = ((Q + 1) * M) * P := by ring
      _ = (l.length / P) * P := by rw [hcov]
      _ = l.length := hNperP
  have htailamt : M * (Q * P) + (R + 1) * P = l.length := by
    have hx : M * (Q * P) + (R + 1) * P = (M * Q + (R + 1)) * P := by ring
    rw [hx, htail]
    exact hNperP
  refine ⟨?_, ?_, ?_, hNperP.symm⟩
  · intro hbr
    rw [hf6, hf5]
    calc (Q + 1) * P * M = M * ((Q + 1) * P) := by ring
      _ = l.length := huniamt hbr
      _ = P * (l.length / P) := Nat.mul_div_cancel' hPN |>.symm
  · intro hbr
    rw [hf6, hf5, hf4, hf1, hKsub]
    calc Q * P * M + P * (R + 1) = M * (Q * P) + (R + 1) * P := by ring
      _ = l.length := htailamt
      _ = P * (l.length / P) := Nat.mul_div_cancel' hPN |>.symm
  · rw [takenAmount]
    by_cases hbr : s.micro_batch_size_ = s.last_micro_batch_size_
    · rw [if_pos hbr, hf5, hf6]
      exact huniamt hbr
    · rw [if_neg hbr, hf5, hf6, hf4, hf1, hKsub]
      calc M * (Q * P) + (R + 1) * P = l.length := htailamt

/-- Witness for C4 at scenario-E data (`sizes = [1]*10`, `P=2`, `G=4`,
`M=2`, `seed=0`, the tail case). -/
theorem C4_witness :
    ((Scheduler.mk 2 none 4 1 2 6 0
        [1, 1, 1, 1, 1, 1, 1, 1, 1, 1]).micro_batch_size_ =
      (Scheduler.mk 2 none 4 1 2 6 0
        [1, 1, 1, 1, 1, 1, 1, 1, 1, 1]).last_micro_batch_size_ →
      (Scheduler.mk 2 none 4 1 2 6 0
        [1, 1, 1, 1, 1, 1, 1, 1, 1, 1]).num_micro_batches_ *
        (Scheduler.mk 2 none 4 1 2 6 0
          [1, 1, 1, 1, 1, 1, 1, 1, 1, 1]).micro_batch_size_ =
        2 * ([1, 1, 1, 1, 1, 1, 1, 1, 1, 1].length / 2)) ∧
    ((Scheduler.mk 2 none 4 1 2 6 0
        [1, 1, 1, 1, 1, 1, 1, 1, 1, 1]).micro_batch_size_ ≠
      (Scheduler.mk 2 none 4 1 2 6 0
        [1, 1, 1, 1, 1, 1, 1, 1, 1, 1]).last_micro_batch_size_ →
      ((Scheduler.mk 2 none 4 1 2 6 0
          [1, 1, 1, 1, 1, 1, 1, 1, 1, 1]).num_micro_batches_ -
        (Scheduler.mk 2 none 4 1 2 6 0
          [1, 1, 1, 1, 1, 1, 1, 1, 1, 1]).data_parallel_size_) *
        (Scheduler.mk 2 none 4 1 2 6 0
          [1, 1, 1, 1, 1, 1, 1, 1, 1, 1]).micro_batch_size_ +
        2 * (Scheduler.mk 2 none 4 1 2 6 0
          [1, 1, 1, 1, 1, 1, 1, 1, 1, 1]).last_micro_batch_size_ =
        2 * ([1, 1, 1, 1, 1, 1, 1, 1, 1, 1].length / 2)) ∧
    takenAmount (Scheduler.mk 2 none 4 1 2 6 0
      [1, 1, 1, 1, 1, 1, 1, 1, 1, 1]) =
      [1, 1, 1, 1, 1, 1, 1, 1, 1, 1].length ∧
    [1, 1, 1, 1, 1, 1, 1, 1, 1, 1].length =
      [1, 1, 1, 1, 1, 1, 1, 1, 1, 1].length / 2 * 2 :=
  C4_coverage [1, 1, 1, 1, 1, 1, 1, 1, 1, 1] 2 4 2 0
    (Scheduler.mk 2 none 4 1 2 6 0 [1, 1, 1, 1, 1, 1, 1, 1, 1, 1])
    (by decide)

/-- C5: the constructor's branch-free expressions equal the spec's
definitions: `num_micro_batches_ = ceil(per_rank / M) * P` and
`last_micro_batch_size_ = ((per_rank - 1) mod M) + 1`, which lies in
`[1, M]`. -/
theorem C5_branchless (l : List Nat) (P G M seed : Nat) (s : Scheduler)
    (h : mkScheduler (some l) P G M seed = some s) :
    s.num_micro_batches_ = divCeil (l.length / P) M * P ∧
    s.last_micro_batch_size_ = (l.length / P - 1) % M + 1 ∧
    1 ≤ s.last_micro_batch_size_ ∧ s.last_micro_batch_size_ ≤ M := by
  obtain ⟨hA1, hA2, hA3, hA4, hA5, hA6, hA7, hf1, hf2, hf3, hf4, hf5, hf6,
    hf7, hf8⟩ := mkScheduler_inv h
  obtain ⟨hP, hM, hN, hPN, hMGP, hPG, hper, hMle, hPGM, hGMpos, hPGMle⟩ :=
    scheduler_numeric h
  refine ⟨?_, hf4, ?_, ?_⟩
  · rw [hf6, branchless_ceil (l.length / P) M hper hM]
  · rw [hf4]
    omega
  · rw [hf4]
    exact lastSize_le (l.length / P) M hM

/-- Witness for C5 at scenario-A data (uniform case). -/
theorem C5_witness :
    (Scheduler.mk 2 none 4 2 2 4 0
      [1, 1, 1, 1, 1, 1, 1, 1]).num_micro_batches_ =
      divCeil ([1, 1, 1, 1, 1, 1, 1, 1].length / 2) 2 * 2 ∧
    (Scheduler.mk 2 none 4 2 2 4 0
      [1, 1, 1, 1, 1, 1, 1, 1]).last_micro_batch_size_ =
      ([1, 1, 1, 1, 1, 1, 1, 1].length / 2 - 1) % 2 + 1 ∧
    1 ≤ (Scheduler.mk 2 none 4 2 2 4 0
      [1, 1, 1, 1, 1, 1, 1, 1]).last_micro_batch_size_ ∧
    (Scheduler.mk 2 none 4 2 2 4 0
      [1, 1, 1, 1, 1, 1, 1, 1]).last_micro_batch_size_ ≤ 2 :=
  C5_branchless [1, 1, 1, 1, 1, 1, 1, 1] 2 4 2 0
    (Scheduler.mk 2 none 4 2 2 4 0 [1, 1, 1, 1, 1, 1, 1, 1]) (by decide)

/-- C6: `Schedule()` takes the uniform branch exactly when
`per_rank mod M = 0` — the source's branch test
`micro_batch_size_ == last_micro_batch_size_` is equivalent to `M`
dividing `per_rank` — and in that case the partitioner's input has
exactly `K * M` items. -/
theorem C6_branch (l : List Nat) (P G M seed : Nat) (s : Scheduler)
    (h : mkScheduler (some l) P G M seed = some s) :
    (s.micro_batch_size_ = s.last_micro_batch_size_ ↔
      l.length / P % M = 0) ∧
    (l.length / P % M = 0 → ∀ stream : List (Nat × Nat),
      stream.length = l.length →
      (stream.take (s.micro_batch_size_ * s.num_micro_batches_)).length =
        s.num_micro_batches_ * s.micro_batch_size_) := by
  obtain ⟨hA1, hA2, hA3, hA4, hA5, hA6, hA7, hf1, hf2, hf3, hf4, hf5, hf6,
    hf7, hf8⟩ := mkScheduler_inv h
  obtain ⟨hP, hM, hN, hPN, hMGP, hPG, hper, hMle, hPGM, hGMpos, hPGMle⟩ :=
    scheduler_numeric h
  set Q := (l.length / P - 1) / M with hQdef
  set R := (l.length / P - 1) % M with hRdef
  have hNperP : l.length / P * P = l.length := by
    rw [Nat.mul_comm]
    exact Nat.mul_div_cancel' hPN
  have hiff : R + 1 = M ↔ l.length / P % M = 0 :=
    uniform_iff (l.length / P) M hper hM
  constructor
  · rw [hf5, hf4]
    exact eq_comm.trans hiff
  · intro hmod stream hlen
    have hcov : (Q + 1) * M = l.length / P :=
      uniform_coverage (l.length / P) M hper hM
        (Nat.dvd_of_mod_eq_zero hmod)
    have hKM : M * ((Q + 1) * P) = l.length := by
      calc M * ((Q + 1) * P) = ((Q + 1) * M) * P := by ring
        _ = (l.length / P) * P := by rw [hcov]
        _ = l.length := hNperP
    rw [hf5, hf6, List.length_take, hlen, hKM]
    have hm : (Q + 1) * P * M = l.length := by
      rw [← hKM]
      ring
    omega

/-- Witness for C6 at scenario-A data (uniform case, `per_rank = 4`,
`M = 2`). -/
theorem C6_witness :
    ((Scheduler.mk 2 none 4 2 2 4 0
        [1, 1, 1, 1, 1, 1, 1, 1]).micro_batch_size_ =
      (Scheduler.mk 2 none 4 2 2 4 0
        [1, 1, 1, 1, 1, 1, 1, 1]).last_micro_batch_size_ ↔
      [1, 1, 1, 1, 1, 1, 1, 1].length / 2 % 2 = 0) ∧
    ([1, 1, 1, 1, 1, 1, 1, 1].length / 2 % 2 = 0 →
      ∀ stream : List (Nat × Nat),
      stream.length = [1, 1, 1, 1, 1, 1, 1, 1].length →
      (stream.take ((Scheduler.mk 2 none 4 2 2 4 0
          [1, 1, 1, 1, 1, 1, 1, 1]).micro_batch_size_ *
        (Scheduler.mk 2 none 4 2 2 4 0
          [1, 1, 1, 1, 1, 1, 1, 1]).num_micro_batches_)).length =
        (Scheduler.mk 2 none 4 2 2 4 0
          [1, 1, 1, 1, 1, 1, 1, 1]).num_micro_batches_ *
        (Scheduler.mk 2 none 4 2 2 4 0
          [1, 1, 1, 1, 1, 1, 1, 1]).micro_batch_size_) :=
  C6_branch [1, 1, 1, 1, 1, 1, 1, 1] 2 4 2 0
    (Scheduler.mk 2 none 4 2 2 4 0 [1, 1, 1, 1, 1, 1, 1, 1]) (by decide)

/-- C7: construction succeeds exactly when every §3 precondition holds —
`P ≠ 0`, `G ≠ 0`, `G mod P = 0`, `M ≠ 0`, `(G / P) mod M = 0`, the sizes
pointer is non-null, `N ≠ 0` and `N mod P = 0`; otherwise an assert fires
and no object (and no partial state) is produced. -/
theorem C7_preconditions (sizes : Option (List Nat))
    (P G M seed : Nat) :
    (∃ s, mkScheduler sizes P G M seed = some s) ↔
      ∃ l, sizes = some l ∧ P ≠ 0 ∧ G ≠ 0 ∧ G % P = 0 ∧ M ≠ 0 ∧
        G / P % M = 0 ∧ l.length ≠ 0 ∧ l.length % P = 0 := by
  cases sizes with
  | none =>
    simp [mkScheduler]
  | some l =>
    constructor
    · intro hex
      obtain ⟨s, hs⟩ := hex
      obtain ⟨h1, h2, h3, h4, h5, h6, h7, _⟩ := mkScheduler_inv hs
      exact ⟨l, rfl, h1, h2, h3, h4, h5, h6, h7⟩
    · intro hex
      obtain ⟨l', hl', h1, h2, h3, h4, h5, h6, h7⟩ := hex
      obtain rfl : l' = l := Option.some.inj hl'.symm
      refine ⟨Scheduler.mk P none G ((l'.length / P - 1) % M + 1) M
        (((l'.length / P - 1) / M + 1) * P) seed l', ?_⟩
      rw [mkScheduler, if_pos ⟨h1, h2, h3, h4, h5, h6, h7⟩]

/-- C9: no public operation modifies the configuration fields or the
derived constants; `on_epoch_begin` modifies exactly `epoch_`; the batch,
epoch-end and train callbacks leave the scheduler untouched; and
`Schedule()` (as `scheduleStep`) returns the scheduler unchanged — the
only state it consumes lives in the dataset stream. -/
theorem C9_frame (s : Scheduler) (e batch rank : Nat) {γ : Type}
    (costs : γ) (stream : List (Nat × Nat)) :
    (onEpochBegin e s).data_parallel_size_ = s.data_parallel_size_ ∧
    (onEpochBegin e s).global_batch_size_ = s.global_batch_size_ ∧
    (onEpochBegin e s).micro_batch_size_ = s.micro_batch_size_ ∧
    (onEpochBegin e s).last_micro_batch_size_ = s.last_micro_batch_size_ ∧
    (onEpochBegin e s).num_micro_batches_ = s.num_micro_batches_ ∧
    (onEpochBegin e s).seed_ = s.seed_ ∧
    (onEpochBegin e s).dataset_ = s.dataset_ ∧
    (onEpochBegin e s).epoch_ = some e ∧
    onEpochEnd e s = s ∧ onBatchBegin batch s = s ∧
    onBatchEnd batch rank costs s = s ∧
    onTrainBegin s = s ∧ onTrainEnd s = s ∧
    (scheduleStep s stream).2.1 = s :=
  ⟨rfl, rfl, rfl, rfl, rfl, rfl, rfl, rfl, rfl, rfl, rfl, rfl, rfl, rfl⟩

/-- C10: the constructor leaves `epoch_` unset, so the shuffle seed
`epoch_ + seed_` is well-defined only after `on_epoch_begin`: on a fresh
scheduler the seed is undefined and `Schedule()` has no defined result,
while after `on_epoch_begin(e)` the seed used is exactly `e + seed`. -/
theorem C10_epoch_seed (l : List Nat) (P G M seed : Nat) (s : Scheduler)
    (h : mkScheduler (some l) P G M seed = some s) :
    s.epoch_ = none ∧ shuffleSeedOf s = none ∧
    (∀ stream, Schedule s stream = none) ∧
    (∀ e, (onEpochBegin e s).epoch_ = some e ∧
      shuffleSeedOf (onEpochBegin e s) = some (e + seed)) := by
  obtain ⟨hA1, hA2, hA3, hA4, hA5, hA6, hA7, hf1, hf2, hf3, hf4, hf5, hf6,
    hf7, hf8⟩ := mkScheduler_inv h
  refine ⟨hf2, ?_, ?_, ?_⟩
  · rw [shuffleSeedOf, hf2]
    rfl
  · intro stream
    exact Schedule_no_epoch s stream hf2
  · intro e
    refine ⟨rfl, ?_⟩
    show some (e + s.seed_) = some (e + seed)
    rw [hf7]

/-- Witness for C10 at scenario-E data. -/
theorem C10_witness :
    (Scheduler.mk 2 none 4 1 2 6 0
      [1, 1, 1, 1, 1, 1, 1, 1, 1, 1]).epoch_ = none ∧
    shuffleSeedOf (Scheduler.mk 2 none 4 1 2 6 0
      [1, 1, 1, 1, 1, 1, 1, 1, 1, 1]) = none ∧
    (∀ stream, Schedule (Scheduler.mk 2 none 4 1 2 6 0
      [1, 1, 1, 1, 1, 1, 1, 1, 1, 1]) stream = none) ∧
    (∀ e, (onEpochBegin e (Scheduler.mk 2 none 4 1 2 6 0
        [1, 1, 1, 1, 1, 1, 1, 1, 1, 1])).epoch_ = some e ∧
      shuffleSeedOf (onEpochBegin e (Scheduler.mk 2 none 4 1 2 6 0
        [1, 1, 1, 1, 1, 1, 1, 1, 1, 1])) = some (e + 0)) :=
  C10_epoch_seed [1, 1, 1, 1, 1, 1, 1, 1, 1, 1] 2 4 2 0
    (Scheduler.mk 2 none 4 1 2 6 0 [1, 1, 1, 1, 1, 1, 1, 1, 1, 1])
    (by decide)

/-- C1 counterexample: the configuration `sizes = [1]`, `P = 1`, `G = 2`,
`M = 2`, `seed = 0` satisfies every §3 precondition (construction
succeeds) and the epoch stream enumerates each index exactly once, yet
`Schedule()` returns no schedule at all — `per_rank = 1 < M` makes the
tail branch call the partitioner with target `K - P = 0`, which is
rejected — so no permutation of `{0, …, N-1}` is returned. -/
theorem C1_counterexample :
    mkScheduler (some [1]) 1 2 2 0 =
      some (Scheduler.mk 1 none 2 1 2 1 0 [1]) ∧
    (([((0 : Nat), (1 : Nat))].map Prod.fst).Perm (List.range 1)) ∧
    ¬∃ out, Schedule (onEpochBegin 0 (Scheduler.mk 1 none 2 1 2 1 0 [1]))
      [(0, 1)] = some out ∧ out.flatten.Perm (List.range 1) := by
  refine ⟨by decide, by decide, ?_⟩
  rintro ⟨out, hout, -⟩
  have hnone : Schedule (onEpochBegin 0 (Scheduler.mk 1 none 2 1 2 1 0 [1]))
      [(0, 1)] = none := by decide
  rw [hnone] at hout
  exact Option.noConfusion hout

/-- C1 (amended): under the §3 preconditions strengthened by
`M ≤ per_rank`, for a dataset whose epoch stream returns each index in
`{0, …, N-1}` exactly once, `Schedule()` returns a schedule whose
flattening is a permutation of `{0, …, N-1}`. -/
theorem C1_permutation {l : List Nat} {P G M seed : Nat} {s : Scheduler}
    (h : mkScheduler (some l) P G M seed = some s)
    (hbig : M ≤ l.length / P)
    (e : Nat) (stream : List (Nat × Nat))
    (hstream : (stream.map Prod.fst).Perm (List.range l.length)) :
    ∃ out, Schedule (onEpochBegin e s) stream = some out ∧
      out.flatten.Perm (List.range l.length) := by
  obtain ⟨out, h1, h2, -, -⟩ := Schedule_master h hbig e stream hstream
  exact ⟨out, h1, h2⟩

/-- Witness for C1 at scenario-E data (`sizes = [1]*10`, `P=2`, `G=4`,
`M=2`, `seed=0`, tail case). -/
theorem C1_witness :
    ∃ out, Schedule (onEpochBegin 0 (Scheduler.mk 2 none 4 1 2 6 0
        [1, 1, 1, 1, 1, 1, 1, 1, 1, 1]))
      ((List.range 10).map (fun i => (i, 1))) = some out ∧
      out.flatten.Perm (List.range
        [1, 1, 1, 1, 1, 1, 1, 1, 1, 1].length) :=
  C1_permutation
    (show mkScheduler (some [1, 1, 1, 1, 1, 1, 1, 1, 1, 1]) 2 4 2 0 =
      some (Scheduler.mk 2 none 4 1 2 6 0 [1, 1, 1, 1, 1, 1, 1, 1, 1, 1])
      by decide)
    (by decide) 0 ((List.range 10).map (fun i => (i, 1))) (by decide)

/-- C2 counterexample: at `sizes = [1]`, `P = 1`, `G = 2`, `M = 2`,
`seed = 0` — a configuration satisfying every §3 precondition —
`Schedule()` aborts (the tail branch's head partition target is zero), so
no list of `P` rows of length `per_rank` is returned. -/
theorem C2_counterexample :
    mkScheduler (some [1]) 1 2 2 0 =
      some (Scheduler.mk 1 none 2 1 2 1 0 [1]) ∧
    ¬∃ out, Schedule (onEpochBegin 0 (Scheduler.mk 1 none 2 1 2 1 0 [1]))
      [(0, 1)] = some out ∧ out.length = 1 ∧
      ∀ row ∈ out, row.length = [1].length / 1 := by
  refine ⟨by decide, ?_⟩
  rintro ⟨out, hout, -⟩
  have hnone : Schedule (onEpochBegin 0 (Scheduler.mk 1 none 2 1 2 1 0 [1]))
      [(0, 1)] = none := by decide
  rw [hnone] at hout
  exact Option.noConfusion hout

/-- C2 (amended): under the §3 preconditions strengthened by
`M ≤ per_rank`, `Schedule()` returns exactly `P` inner lists and every
rank's list has length `per_rank = N / P`. -/
theorem C2_shape {l : List Nat} {P G M seed : Nat} {s : Scheduler}
    (h : mkScheduler (some l) P G M seed = some s)
    (hbig : M ≤ l.length / P)
    (e : Nat) (stream : List (Nat × Nat))
    (hstream : (stream.map Prod.fst).Perm (List.range l.length)) :
    ∃ out, Schedule (onEpochBegin e s) stream = some out ∧
      out.length = P ∧ ∀ row ∈ out, row.length = l.length / P := by
  obtain ⟨out, h1, -, h3, h4⟩ := Schedule_master h hbig e stream hstream
  exact ⟨out, h1, h3, h4⟩

/-- Witness for C2 at scenario-E data. -/
theorem C2_witness :
    ∃ out, Schedule (onEpochBegin 0 (Scheduler.mk 2 none 4 1 2 6 0
        [1, 1, 1, 1, 1, 1, 1, 1, 1, 1]))
      ((List.range 10).map (fun i => (i, 1))) = some out ∧
      out.length = 2 ∧
      ∀ row ∈ out, row.length = [1, 1, 1, 1, 1, 1, 1, 1, 1, 1].length / 2 :=
  C2_shape
    (show mkScheduler (some [1, 1, 1, 1, 1, 1, 1, 1, 1, 1]) 2 4 2 0 =
      some (Scheduler.mk 2 none 4 1 2 6 0 [1, 1, 1, 1, 1, 1, 1, 1, 1, 1])
      by decide)
    (by decide) 0 ((List.range 10).map (fun i => (i, 1))) (by decide)

/-- C8 counterexample: at `sizes = [1]`, `P = 1`, `G = 2`, `M = 2`,
`seed = 0` — which satisfies every §3 precondition — the tail branch is
taken and the head partitioner is invoked with target
`num_micro_batches_ - data_parallel_size_ = 0` and an empty item list,
so the claimed positivity of every partition target fails and the
rejected `K == 0` case does occur. -/
theorem C8_counterexample :
    mkScheduler (some [1]) 1 2 2 0 =
      some (Scheduler.mk 1 none 2 1 2 1 0 [1]) ∧
    (Scheduler.mk 1 none 2 1 2 1 0 [1]).micro_batch_size_ ≠
      (Scheduler.mk 1 none 2 1 2 1 0 [1]).last_micro_batch_size_ ∧
    (Scheduler.mk 1 none 2 1 2 1 0 [1]).num_micro_batches_ -
      (Scheduler.mk 1 none 2 1 2 1 0 [1]).data_parallel_size_ = 0 ∧
    [((0 : Nat), (1 : Nat))].take
      ((Scheduler.mk 1 none 2 1 2 1 0 [1]).micro_batch_size_ *
        ((Scheduler.mk 1 none 2 1 2 1 0 [1]).num_micro_batches_ -
          (Scheduler.mk 1 none 2 1 2 1 0 [1]).data_parallel_size_)) = [] ∧
    KarmarkarKarp ([((0 : Nat), (1 : Nat))].take
      ((Scheduler.mk 1 none 2 1 2 1 0 [1]).micro_batch_size_ *
        ((Scheduler.mk 1 none 2 1 2 1 0 [1]).num_micro_batches_ -
          (Scheduler.mk 1 none 2 1 2 1 0 [1]).data_parallel_size_)))
      ((Scheduler.mk 1 none 2 1 2 1 0 [1]).num_micro_batches_ -
        (Scheduler.mk 1 none 2 1 2 1 0 [1]).data_parallel_size_) =
      none := by
  decide

/-- C8 (amended): under the §3 preconditions strengthened by
`M ≤ per_rank`, every partitioner invocation made by `Schedule()` has a
strictly positive partition target and a non-empty item list — in the
uniform branch target `K` with `M * K` items, in the tail branch targets
`K - P ≥ 1` and `P` with `M * (K - P)` and `L * P` items. -/
theorem C8_positive_targets {l : List Nat} {P G M seed : Nat}
    {s : Scheduler} (h : mkScheduler (some l) P G M seed = some s)
    (hbig : M ≤ l.length / P)
    (stream : List (Nat × Nat)) (hlen : stream.length = l.length) :
    (s.micro_batch_size_ = s.last_micro_batch_size_ →
      0 < s.num_micro_batches_ ∧
      stream.take (s.micro_batch_size_ * s.num_micro_batches_) ≠ []) ∧
    (s.micro_batch_size_ ≠ s.last_micro_batch_size_ →
      0 < s.num_micro_batches_ - s.data_parallel_size_ ∧
      stream.take (s.micro_batch_size_ *
        (s.num_micro_batches_ - s.data_parallel_size_)) ≠ [] ∧
      (stream.drop (s.micro_batch_size_ *
        (s.num_micro_batches_ - s.data_parallel_size_))).take
        (s.last_micro_batch_size_ * s.data_parallel_size_) ≠ []) := by
  obtain ⟨hA1, hA2, hA3, hA4, hA5, hA6, hA7, hf1, hf2, hf3, hf4, hf5, hf6,
    hf7, hf8⟩ := mkScheduler_inv h
  obtain ⟨hP, hM, hN, hPN, hMGP, hPG, hper, hMle, hPGM, hGMpos, hPGMle⟩ :=
    scheduler_numeric h
  set Q := (l.length / P - 1) / M with hQdef
  set R := (l.length / P - 1) % M with hRdef
  have hNperP : l.length / P * P = l.length := by
    rw [Nat.mul_comm]
    exact Nat.mul_div_cancel' hPN
  have htail : M * Q + (R + 1) = l.length / P :=
    tail_identity (l.length / P) M hper
  have hKsub : (Q + 1) * P - P = Q * P := by
    have hx : (Q + 1) * P = Q * P + P := by ring
    omega
  constructor
  · intro hbr
    rw [hf5, hf4] at hbr
    have hmod : l.length / P % M = 0 :=
      (uniform_iff (l.length / P) M hper hM).mp hbr.symm
    have hcov : (Q + 1) * M = l.length / P :=
      uniform_coverage (l.length / P) M hper hM
        (Nat.dvd_of_mod_eq_zero hmod)
    have hKM : M * ((Q + 1) * P) = l.length := by
      calc M * ((Q + 1) * P) = ((Q + 1) * M) * P := by ring
        _ = (l.length / P) * P := by rw [hcov]
        _ = l.length := hNperP
    refine ⟨by rw [hf6]; exact Nat.mul_pos (Nat.succ_pos Q) hP, ?_⟩
    rw [hf5, hf6, ← List.length_pos, List.length_take, hlen, hKM]
    omega
  · intro hbr
    rw [hf5, hf4] at hbr
    have hmod : ¬ l.length / P % M = 0 := by
      intro hcon
      exact hbr ((uniform_iff (l.length / P) M hper hM).mpr hcon).symm
    have hMlt : M < l.length / P := by
      rcases Nat.lt_or_ge M (l.length / P) with h1 | h1
      · exact h1
      · have hEq : M = l.length / P := by omega
        rw [← hEq, Nat.mod_self] at hmod
        exact absurd rfl hmod
    have hd1 : 1 ≤ Q :=
      (Nat.le_div_iff_mul_le hM).mpr (by omega)
    have hamounts : M * (Q * P) + (R + 1) * P = l.length := by
      have hx : M * (Q * P) + (R + 1) * P = (M * Q + (R + 1)) * P := by ring
      rw [hx, htail]
      exact hNperP
    have hQPpos : 0 < Q * P := Nat.mul_pos hd1 hP
    have hLPpos : 0 < (R + 1) * P := Nat.mul_pos (Nat.succ_pos R) hP
    refine ⟨?_, ?_, ?_⟩
    · rw [hf6, hf1, hKsub]
      exact hQPpos
    · rw [hf5, hf6, hf1, hKsub, ← List.length_pos, List.length_take, hlen]
      have hMQP : 0 < M * (Q * P) := Nat.mul_pos hM hQPpos
      omega
    · rw [hf5, hf6, hf1, hf4, hKsub, ← List.length_pos, List.length_take,
        List.length_drop, hlen]
      omega

/-- Witness for C8 at scenario-E data (tail case: head target
`K - P = 4`, tail target `P = 2`). -/
theorem C8_witness :
    ((Scheduler.mk 2 none 4 1 2 6 0
        [1, 1, 1, 1, 1, 1, 1, 1, 1, 1]).micro_batch_size_ =
      (Scheduler.mk 2 none 4 1 2 6 0
        [1, 1, 1, 1, 1, 1, 1, 1, 1, 1]).last_micro_batch_size_ →
      0 < (Scheduler.mk 2 none 4 1 2 6 0
        [1, 1, 1, 1, 1, 1, 1, 1, 1, 1]).num_micro_batches_ ∧
      ((List.range 10).map (fun i => (i, 1))).take
        ((Scheduler.mk 2 none 4 1 2 6 0
          [1, 1, 1, 1, 1, 1, 1, 1, 1, 1]).micro_batch_size_ *
        (Scheduler.mk 2 none 4 1 2 6 0
          [1, 1, 1, 1, 1, 1, 1, 1, 1, 1]).num_micro_batches_) ≠ []) ∧
    ((Scheduler.mk 2 none 4 1 2 6 0
        [1, 1, 1, 1, 1, 1, 1, 1, 1, 1]).micro_batch_size_ ≠
      (Scheduler.mk 2 none 4 1 2 6 0
        [1, 1, 1, 1, 1, 1, 1, 1, 1, 1]).last_micro_batch_size_ →
      0 < (Scheduler.mk 2 none 4 1 2 6 0
          [1, 1, 1, 1, 1, 1, 1, 1, 1, 1]).num_micro_batches_ -
        (Scheduler.mk 2 none 4 1 2 6 0
          [1, 1, 1, 1, 1, 1, 1, 1, 1, 1]).data_parallel_size_ ∧
      ((List.range 10).map (fun i => (i, 1))).take
        ((Scheduler.mk 2 none 4 1 2 6 0
          [1, 1, 1, 1, 1, 1, 1, 1, 1, 1]).micro_batch_size_ *
        ((Scheduler.mk 2 none 4 1 2 6 0
            [1, 1, 1, 1, 1, 1, 1, 1, 1, 1]).num_micro_batches_ -
          (Scheduler.mk 2 none 4 1 2 6 0
            [1, 1, 1, 1, 1, 1, 1, 1, 1, 1]).data_parallel_size_)) ≠ [] ∧
      (((List.range 10).map (fun i => (i, 1))).drop
        ((Scheduler.mk 2 none 4 1 2 6 0
          [1, 1, 1, 1, 1, 1, 1, 1, 1, 1]).micro_batch_size_ *
        ((Scheduler.mk 2 none 4 1 2 6 0
            [1, 1, 1, 1, 1, 1, 1, 1, 1, 1]).num_micro_batches_ -
          (Scheduler.mk 2 none 4 1 2 6 0
            [1, 1, 1, 1, 1, 1, 1, 1, 1, 1]).data_parallel_size_))).take
        ((Scheduler.mk 2 none 4 1 2 6 0
          [1, 1, 1, 1, 1, 1, 1, 1, 1, 1]).last_micro_batch_size_ *
        (Scheduler.mk 2 none 4 1 2 6 0
          [1, 1, 1, 1, 1, 1, 1, 1, 1, 1]).data_parallel_size_) ≠ []) :=
  C8_positive_targets
    (show mkScheduler (some [1, 1, 1, 1, 1, 1, 1, 1, 1, 1]) 2 4 2 0 =
      some (Scheduler.mk 2 none 4 1 2 6 0 [1, 1, 1, 1, 1, 1, 1, 1, 1, 1])
      by decide)
    (by decide) ((List.range 10).map (fun i => (i, 1))) (by decide)

end Flatflow
